import Mathlib

/-!
Shallow embedding of the `node-hashring` consistent hashing ring
(`src/index.js`) together with proofs about its specification.

Conventions used throughout:
* JavaScript strings are Lean `String`s; byte sequences are `List Nat`
  with every entry intended to be `< 256`.
* The pluggable digest (`this.hash`, by default node's crypto md5) is an
  external collaborator; it is a function field `hash : String → List Nat`
  returning the digest bytes.
* JavaScript `Number` arithmetic in the continuum
  (`Math.floor(weight / total * vnodes * servers.length)`) is modelled
  bit-exactly as IEEE binary64: `roundBin64` performs correct
  round-to-nearest-even with gradual underflow using only integer
  arithmetic, and `serverLength` chains one rounded division and two
  rounded multiplications exactly as the left-associative source
  expression does.  This matters: binary64 `(1/3) * 7 * 3` is just
  below 7, so three equal-weight servers with vnode count 7 get 6
  points each, not the exact-arithmetic 7 (`exactServerLength`).
  Weights themselves and their `reduce` total are modelled as exact
  naturals, which is bit-exact while every value stays below 2^53.
* `Buffer#toString()` (UTF-8 decoding with replacement characters) and
  `String#split('').map(charCodeAt)` (UTF-16 code units) are modelled in
  full, because `HashRing.prototype.digest` funnels the digest bytes
  through them.
-/

/-! ### UTF-8 / UTF-16: model of `Buffer#toString()` and `charCodeAt` -/

/-- Lower boundary for the first continuation byte after a lead byte `b`,
per the WHATWG UTF-8 decoder (0xE0 → 0xA0, 0xF0 → 0x90, otherwise 0x80). -/
def utf8Lo (b : Nat) : Nat :=
  if b = 0xE0 then 0xA0 else if b = 0xF0 then 0x90 else 0x80

/-- Upper boundary for the first continuation byte after a lead byte `b`,
per the WHATWG UTF-8 decoder (0xED → 0x9F, 0xF4 → 0x8F, otherwise 0xBF). -/
def utf8Hi (b : Nat) : Nat :=
  if b = 0xED then 0x9F else if b = 0xF4 then 0x8F else 0xBF

/-- WHATWG UTF-8 decode with replacement (the semantics of node's
`Buffer#toString('utf8')`): bytes in, Unicode code points out.  Invalid
bytes become U+FFFD (65533); an invalid continuation byte is reprocessed
as a fresh lead byte (here: the recursive call on the untouched tail). -/
def utf8Decode : List Nat → List Nat
  | [] => []
  | b :: bs =>
    if b ≤ 0x7F then b :: utf8Decode bs
    else if b < 0xC2 then 0xFFFD :: utf8Decode bs
    else if b ≤ 0xDF then
      match bs with
      | [] => [0xFFFD]
      | c :: rest =>
        if 0x80 ≤ c ∧ c ≤ 0xBF then
          ((b % 0x20) * 0x40 + c % 0x40) :: utf8Decode rest
        else 0xFFFD :: utf8Decode (c :: rest)
    else if b ≤ 0xEF then
      match bs with
      | [] => [0xFFFD]
      | c :: rest =>
        if utf8Lo b ≤ c ∧ c ≤ utf8Hi b then
          match rest with
          | [] => [0xFFFD]
          | d :: rest2 =>
            if 0x80 ≤ d ∧ d ≤ 0xBF then
              ((b % 0x10) * 0x1000 + (c % 0x40) * 0x40 + d % 0x40) :: utf8Decode rest2
            else 0xFFFD :: utf8Decode (d :: rest2)
        else 0xFFFD :: utf8Decode (c :: rest)
    else if b ≤ 0xF4 then
      match bs with
      | [] => [0xFFFD]
      | c :: rest =>
        if utf8Lo b ≤ c ∧ c ≤ utf8Hi b then
          match rest with
          | [] => [0xFFFD]
          | d :: rest2 =>
            if 0x80 ≤ d ∧ d ≤ 0xBF then
              match rest2 with
              | [] => [0xFFFD]
              | e :: rest3 =>
                if 0x80 ≤ e ∧ e ≤ 0xBF then
                  ((b % 8) * 0x40000 + (c % 0x40) * 0x1000 + (d % 0x40) * 0x40 + e % 0x40) ::
                    utf8Decode rest3
                else 0xFFFD :: utf8Decode (e :: rest3)
            else 0xFFFD :: utf8Decode (d :: rest2)
        else 0xFFFD :: utf8Decode (c :: rest)
    else 0xFFFD :: utf8Decode bs

/-- A Unicode code point as UTF-16 code units (JavaScript string
characters; `charCodeAt` returns these). -/
def utf16Units (cp : Nat) : List Nat :=
  if cp < 0x10000 then [cp]
  else [0xD800 + (cp - 0x10000) / 0x400, 0xDC00 + (cp - 0x10000) % 0x400]

/-- `buffer.toString().split('').map(c => c.charCodeAt(0))` applied to a
byte sequence: UTF-8 decode, then the UTF-16 code units of the result. -/
def bufferCharCodes (bytes : List Nat) : List Nat :=
  (utf8Decode bytes).flatMap utf16Units

/-! ### Point packing (native `hashvalue` module) -/

/-- Modelled from the spec: the native `hashvalue.hash` add-on
(`./build/Release/hashvalue`, not part of `src/`) packs four 8-bit
quantities into an unsigned 32-bit coordinate,
`value = digest[o+3] + digest[o+2]*2^8 + digest[o+1]*2^16 + digest[o]*2^24`;
the call sites pass `a = digest[o+3], …, d = digest[o]`.  The reduction
mod 2^32 reflects the unsigned 32-bit result type. -/
def hashValueHash (a b c d : Nat) : Nat :=
  (a + b * 2 ^ 8 + c * 2 ^ 16 + d * 2 ^ 24) % 2 ^ 32

/-- `HashRing.prototype.digest`:
`this.hash(key + '').toString().split('').map(charCode)` — the digest
bytes pushed through UTF-8 decoding and `charCodeAt`. -/
def digestBytes (hash : String → List Nat) (key : String) : List Nat :=
  bufferCharCodes (hash key)

/-! ### Data model -/

/-- A single `Node` of the hash ring: `{value: hashvalue, server}`. -/
structure Node where
  value : Nat
  server : String
deriving DecidableEq

/-- Default node used to express out-of-range array reads (JS
`undefined`); `find` never actually reads out of range on well-formed
states. -/
def nodeD : Node := ⟨0, ""⟩

/-- One parsed server record as produced by the external
`connection-parse` collaborator: canonical id `string`, `host`, `port`,
`weight` and the per-server virtual-node override `vnodes` (0 when the
extension found none — the code treats 0 as absent via `||`). -/
structure Server where
  string : String
  host : String
  port : Nat
  weight : Nat
  vnodes : Nat
deriving DecidableEq

/-- Constructor options (`options` argument).  `none` models an omitted
property; the code applies `||`-defaults, so `0` also falls back. -/
structure RingOptions where
  pointsPerServer : Option Nat := none
  vnodeCount : Option Nat := none
  compatibility : Option String := none
  maxCacheSize : Option Nat := none

/-- JS `options.x || d` for numeric options: `0`/absent are falsy. -/
def orDefault : Option Nat → Nat → Nat
  | some v, d => if v = 0 then d else v
  | none, d => d

/-- The `HashRing` instance state.  The bounded LRU `SimpleCache`
(external collaborator) is modelled from the spec as an association list
supporting get/set/clear/iterate. -/
structure HashRing where
  hash : String → List Nat
  pps : Nat
  vnode : Nat
  replicas : Nat
  ring : List Node
  size : Nat
  vnodes : List (String × Nat)
  servers : List Server
  cache : List (String × String)

namespace HashRing

/-- `this.digest(key)` for an instance. -/
def digest (r : HashRing) (key : String) : List Nat :=
  digestBytes r.hash key

/-- `HashRing.prototype.hashValue`: pack quartet 0 of the digest.
Out-of-range reads (`undefined` coerced by the native add-on) are 0. -/
def hashValue (r : HashRing) (key : String) : Nat :=
  let x := r.digest key
  hashValueHash (x.getD 3 0) (x.getD 2 0) (x.getD 1 0) (x.getD 0 0)

/-! ### IEEE binary64 arithmetic (the `Number` type of the source) -/

/-- Binary digit count (`⌊log₂ n⌋ + 1` for positive `n`), by structural
recursion on a fuel so the kernel can evaluate it on literals. -/
def bitsF : Nat → Nat → Nat
  | 0, _ => 0
  | fuel + 1, n => if n = 0 then 0 else bitsF fuel (n / 2) + 1

def bits (n : Nat) : Nat := bitsF n n

/-- Correctly round the non-negative rational `num / den` to the nearest
IEEE binary64 value (round to nearest, ties to even, with gradual
underflow below 2^-1022), returned as an exact fraction whose
denominator is a power of two.  Overflow to Infinity (at 2^1024) is not
modelled: with the weights at hand every quotient is ≤ 1, and a product
that large would make the source's `for` loop run ~2^1024 iterations. -/
def roundBin64 (num den : Nat) : Nat × Nat :=
  if num = 0 ∨ den = 0 then (0, 1)
  else
    -- 2^E ≤ num/den < 2^(E+1)
    let E : Int :=
      if den * 2 ^ bits num ≤ num * 2 ^ bits den then
        (bits num : Int) - bits den
      else (bits num : Int) - bits den - 1
    -- the rounding quantum 2^e (clamped for subnormals)
    let e : Int := max (-1074) (E - 52)
    let N := num * 2 ^ (-e).toNat
    let D := den * 2 ^ e.toNat
    let q := N / D
    let r := N % D
    let m := if 2 * r > D ∨ (2 * r = D ∧ q % 2 = 1) then q + 1 else q
    if 0 ≤ e then (m * 2 ^ e.toNat, 1) else (m, 2 ^ (-e).toNat)

/-! ### Continuum construction -/

/-- Total weight: `servers.reduce((total, server) => total + server.weight, 0)`.
The source sums doubles; modelled as the exact natural sum, which is
bit-exact while the running total stays below 2^53. -/
def totalWeight (servers : List Server) : Nat :=
  servers.foldl (fun t s => t + s.weight) 0

/-- `self.vnodes[server.string] || self.vnode` — the override map entry
when present and non-zero, the base vnode count otherwise. -/
def vnodesFor (r : HashRing) (s : String) : Nat :=
  match List.lookup s r.vnodes with
  | some v => if v = 0 then r.vnode else v
  | none => r.vnode

/-- `Math.floor(percentage * vnodes * servers.length)` with
`percentage = server.weight / total` (src line 102-104), evaluated
exactly as JavaScript's binary64 arithmetic evaluates the
left-associative expression: one correctly rounded division, then two
correctly rounded multiplications, then `Math.floor`.  A zero weight
gives 0 directly (`0/total` is 0); a zero total — reachable only when
every weight is 0 — also gives 0, because `0/0` is `NaN` and the `for`
loop bounded by `NaN` never runs. -/
def serverLength (weight total vn count : Nat) : Nat :=
  if weight = 0 ∨ total = 0 then 0
  else
    let p := roundBin64 weight total
    let t1 := roundBin64 (p.1 * vn) p.2
    let t2 := roundBin64 (t1.1 * count) t1.2
    t2.1 / t2.2

/-- The run of ring points one server contributes before sorting: for
each `i < length` digest `name + '-' + i` and pack `replicas` quartets. -/
def pointsFor (hash : String → List Nat) (replicas len : Nat) (name : String) : List Node :=
  (List.range len).flatMap fun i =>
    let x := digestBytes hash (name ++ "-" ++ toString i)
    (List.range replicas).map fun j =>
      Node.mk
        (hashValueHash (x.getD (3 + j * 4) 0) (x.getD (2 + j * 4) 0)
          (x.getD (1 + j * 4) 0) (x.getD (j * 4) 0))
        name

/-- All ring points generated by `continuum`'s `forEach`, in generation
order (before sorting). -/
def genPoints (r : HashRing) : List Node :=
  let total := totalWeight r.servers
  r.servers.flatMap fun s =>
    pointsFor r.hash r.replicas
      (serverLength s.weight total (r.vnodesFor s.string) r.servers.length) s.string

/-- Stable insertion of a node into an already sorted run, placing `n`
before existing nodes of equal `value` (those came later in generation
order than `n` does, see `sortNodes`). -/
def insertNode (n : Node) : List Node → List Node
  | [] => [n]
  | m :: ms => if m.value < n.value then m :: insertNode n ms else n :: m :: ms

/-- Model of `Array#sort` with the comparator
`(a, b) => a.value < b.value ? -1 : a.value > b.value ? 1 : 0`:
`Array#sort` is stable (ES2019), and stable insertion sort computes the
unique stable ascending reordering. -/
def sortNodes : List Node → List Node
  | [] => []
  | n :: ns => insertNode n (sortNodes ns)

/-- `HashRing.prototype.continuum`.  Writing `self.ring[index] = …`
sequentially from index 0 overwrites the existing array in place, leaving
any surplus old entries beyond the write positions; that is
`pts ++ r.ring.drop pts.length` (at every call site `r.ring` is empty, so
the drop contributes nothing). -/
def continuum (r : HashRing) : HashRing :=
  if r.servers.isEmpty then r
  else
    let pts := r.genPoints
    let sorted := sortNodes (pts ++ r.ring.drop pts.length)
    { r with ring := sorted, size := sorted.length }

/-- `new HashRing(servers, algorithm, options)` after the external
`connection-parse` step.  `connections.servers` is `servers`;
`connections.vnodes` is the override map the parser's `vnodes` extension
produced, i.e. the servers' non-zero `vnodes` fields.  The algorithm
(builtin name or substitutable function) is abstracted as `hash`. -/
def vnodeMapOf (servers : List Server) : List (String × Nat) :=
  servers.filterMap fun s => if s.vnodes = 0 then none else some (s.string, s.vnodes)

def mkHashRing (servers : List Server) (hash : String → List Nat)
    (opts : RingOptions) : HashRing :=
  continuum
    { hash := hash
      pps := orDefault opts.pointsPerServer 160
      vnode := orDefault opts.vnodeCount 40
      replicas :=
        match opts.compatibility with
        | some c => if c = "hash_ring" then 3 else 4
        | none => 4
      ring := []
      size := 0
      vnodes := vnodeMapOf servers
      servers := servers
      cache := [] }

/-! ### Lookup -/

/-- `HashRing.prototype.find`'s `while (true)` binary-search loop, with
explicit fuel so the model is total; `none` means the fuel ran out (the
termination theorem shows `size + 1` steps always suffice).  `low`/`high`
are integers because `high` becomes `-1` when `mid === 0` narrows to the
left.  `(low + high) >> 1` equals `/ 2` since `low + high ≥ 0` whenever
the loop body runs. -/
def findLoop (ring : List Node) (size : Nat) (hv : Nat) :
    Int → Int → Nat → Option Nat
  | _, _, 0 => none
  | low, high, fuel + 1 =>
    -- mid = (low + high) >> 1, inlined at each occurrence
    if (low + high) / 2 = (size : Int) then some 0
    else if hv ≤ (ring.getD ((low + high) / 2).toNat nodeD).value ∧
        (if (low + high) / 2 = 0 then 0
         else (ring.getD (((low + high) / 2).toNat - 1) nodeD).value) < hv then
      some ((low + high) / 2).toNat
    else if (ring.getD ((low + high) / 2).toNat nodeD).value < hv then
      if (low + high) / 2 + 1 > high then some 0
      else findLoop ring size hv ((low + high) / 2 + 1) high fuel
    else
      if low > (low + high) / 2 - 1 then some 0
      else findLoop ring size hv low ((low + high) / 2 - 1) fuel

/-- `HashRing.prototype.find`: position of the server nearest after the
given hash value. -/
def find (r : HashRing) (hv : Nat) : Nat :=
  (findLoop r.ring r.size hv 0 (r.size : Int) (r.size + 1)).getD 0

/-- Model of the external `simple-lru-cache` `set` (update or append;
eviction is the collaborator's concern and not modelled). -/
def cacheSet (c : List (String × String)) (k v : String) : List (String × String) :=
  if c.any (fun p => p.1 == k) then c.map fun p => if p.1 == k then (k, v) else p
  else c ++ [(k, v)]

/-- The cache-miss path of `get`: look the node up via `find`, return
`undefined` when there is none, otherwise memoize and return its server. -/
def getCompute (r : HashRing) (key : String) : Option String × HashRing :=
  match r.ring.get? (r.find (r.hashValue key)) with
  | none => (none, r)
  | some node => (some node.server, { r with cache := cacheSet r.cache key node.server })

/-- `HashRing.prototype.get`.  `if (cache) return cache` tests JS
truthiness, so a cached empty string falls through to recomputation. -/
def get (r : HashRing) (key : String) : Option String × HashRing :=
  match List.lookup key r.cache with
  | some v => if v = "" then r.getCompute key else (some v, r)
  | none => r.getCompute key

/-- The pure key→server mapping `get` computes on a cache miss (and, on
consistent caches, also on a hit): the ring entry at `find(hashValue)`. -/
def mapsTo (r : HashRing) (key : String) : Option String :=
  (r.ring.get? (r.find (r.hashValue key))).map (fun n => n.server)

/-! ### range -/

/-- The loop body's push-or-skip step: in unique mode
`if (!~servers.indexOf(node.server)) servers.push(node.server)`,
otherwise `servers.push(node.server)`. -/
def rangePush (unique : Bool) (server : String) (acc : List String) : List String :=
  if unique then if server ∈ acc then acc else acc ++ [server]
  else acc ++ [server]

/-- One circular walk of `range`: the two `for` loops share the
accumulator and the same body, so they are one fold over
`ring[position…] ++ ring[0…position)`; after each visited node the code
checks `servers.length === size`. -/
def rangeLoop (size : Nat) (unique : Bool) : List Node → List String → List String
  | [], acc => acc
  | n :: rest, acc =>
    if (rangePush unique n.server acc).length = size then rangePush unique n.server acc
    else rangeLoop size unique rest (rangePush unique n.server acc)

/-- `HashRing.prototype.range(key, size, unique)`:
`size = size || this.servers.length`;
`unique = unique || 'undefined' === typeof unique`. -/
def range (r : HashRing) (key : String) (size : Option Nat) (unique : Option Bool) :
    List String :=
  if r.size = 0 then []
  else
    rangeLoop
      (match size with
       | some s => if s = 0 then r.servers.length else s
       | none => r.servers.length)
      (match unique with
       | some u => u
       | none => true)
      (r.ring.drop (r.find (r.hashValue key)) ++ r.ring.take (r.find (r.hashValue key))) []

/-! ### Mutations -/

/-- JS `delete map[k]` on a string-keyed object, as an association list. -/
def eraseKey (m : List (String × Nat)) (k : String) : List (String × Nat) :=
  m.filter fun p => p.1 ≠ k

/-- JS `map[k] = v` on a string-keyed object (update or append). -/
def setKey (m : List (String × Nat)) (k : String) (v : Nat) : List (String × Nat) :=
  if m.any (fun p => p.1 == k) then m.map fun p => if p.1 == k then (k, v) else p
  else m ++ [(k, v)]

/-- Modelled from the spec: the external `connection-parse` collaborator
turning one connection descriptor string into `{host, port}`
(`parse(to).servers.pop()` in `swap`, `parse(server).servers.pop()` in
`remove`). -/
def parseHostPort (s : String) : String × Nat :=
  match s.splitOn ":" with
  | [h] => (h, 0)
  | h :: p :: _ => (h, p.toNat?.getD 0)
  | [] => ("", 0)

/-- `HashRing.prototype.swap(from, to)`: relabel ring points and cache
values in place; `this.vnodes[to] = this.vnodes[from]` (when `from` has
no entry this assigns `undefined`, which every later lookup in this
module treats as absent — modelled by erasing `to`'s entry), then
`delete this.vnodes[from]`; rename the matching servers with host/port
from parsing `to`. -/
def swap (r : HashRing) (f t : String) : HashRing :=
  { r with
    ring := r.ring.map fun n => if n.server = f then { n with server := t } else n
    cache := r.cache.map fun p => if p.2 = f then (p.1, t) else p
    vnodes :=
      eraseKey
        (match List.lookup f r.vnodes with
         | some v => setKey r.vnodes t v
         | none => eraseKey r.vnodes t) f
    servers := r.servers.map fun s =>
      if s.string = f then
        { s with string := t, host := (parseHostPort t).1, port := (parseHostPort t).2 }
      else s }

/-- `HashRing.prototype.reset`: clear ring, size and cache. -/
def reset (r : HashRing) : HashRing :=
  { r with ring := [], size := 0, cache := [] }

/-- `HashRing.prototype.remove(server)` with the external
`parse(server).servers.pop().string` canonicalisation abstracted away
(the argument is the canonical id).  `map`-to-`undefined` plus
`filter(Boolean)` is a filter. -/
def remove (r : HashRing) (s : String) : HashRing :=
  continuum
    (reset
      { r with
        vnodes := eraseKey r.vnodes s
        servers := r.servers.filter fun t => t.string ≠ s })

/-- `HashRing.prototype.add(servers)`.  Modelled from the spec: the
external `connection-parse` merge keeps existing entries (first-writer
wins, keyed by canonical id) and its re-parse rebuilds the vnode-override
map from the merged servers. -/
def add (r : HashRing) (newServers : List Server) : HashRing :=
  let merged := newServers.foldl
    (fun acc s => if acc.any (fun u => u.string == s.string) then acc else acc ++ [s])
    r.servers
  continuum (reset { r with vnodes := vnodeMapOf merged, servers := merged })

/-! ### Specification-side definitions (the claims' vocabulary) -/

/-- Index of the first ring point whose coordinate is `≥ hv`. -/
def firstGE (hv : Nat) : List Node → Option Nat
  | [] => none
  | n :: ns => if hv ≤ n.value then some 0 else (firstGE hv ns).map (· + 1)

/-- The ring is sorted ascending by coordinate. -/
def RingSorted (l : List Node) : Prop :=
  l.Pairwise fun a b => a.value ≤ b.value

instance : DecidablePred RingSorted := fun l =>
  inferInstanceAs (Decidable (l.Pairwise _))

/-- Every memoized cache entry agrees with recomputation. -/
def cacheOK (r : HashRing) : Prop :=
  ∀ p ∈ r.cache, r.mapsTo p.1 = some p.2

/-- The ring is exactly the sorted continuum of the current server set,
and `size` mirrors its length — true of every state the API can reach. -/
def canonicalRing (r : HashRing) : Prop :=
  r.ring = sortNodes r.genPoints ∧ r.size = r.ring.length

/-- The claim C3 length formula, with `length_i` computed in binary64
arithmetic as the code computes it: sum over servers of
`length_i × replicaCount`. -/
def formulaSum (r : HashRing) : Nat :=
  (r.servers.map fun s =>
    serverLength s.weight (totalWeight r.servers) (r.vnodesFor s.string)
      r.servers.length * r.replicas).sum

/-- The claim's formula `floor((w_i / W) * vnodes_i * serverCount)` read
in exact (real-number) arithmetic: for natural weights this is natural
division (theorem `exactServerLength_eq_floor`).  The code computes
`serverLength` instead, and the two differ, e.g. at
`(w, W, v, n) = (1, 3, 7, 3)`. -/
def exactServerLength (weight total vn count : Nat) : Nat :=
  weight * vn * count / total

/-- The exact-arithmetic reading of claim C3's length sum. -/
def exactFormulaSum (r : HashRing) : Nat :=
  (r.servers.map fun s =>
    exactServerLength s.weight (totalWeight r.servers) (r.vnodesFor s.string)
      r.servers.length * r.replicas).sum

/-- The C3 ring invariant: sorted ascending, `size` consistent, and the
length formula. -/
def ringInv (r : HashRing) : Prop :=
  RingSorted r.ring ∧ r.size = r.ring.length ∧ r.ring.length = r.formulaSum

instance (r : HashRing) : Decidable r.cacheOK :=
  inferInstanceAs (Decidable (∀ p ∈ r.cache, r.mapsTo p.1 = some p.2))

instance (r : HashRing) : Decidable r.canonicalRing :=
  inferInstanceAs (Decidable (r.ring = sortNodes r.genPoints ∧ r.size = r.ring.length))

instance (r : HashRing) : Decidable r.ringInv :=
  inferInstanceAs (Decidable (RingSorted r.ring ∧ r.size = r.ring.length ∧
    r.ring.length = r.formulaSum))

/-- First-occurrence deduplication, generalised over an accumulator of
already collected ids (mirrors `range`'s `indexOf` check). -/
def dedupInto (acc : List String) : List String → List String
  | [] => acc
  | s :: rest => dedupInto (if s ∈ acc then acc else acc ++ [s]) rest

/-- The distinct server ids of a walk, first occurrences first. -/
def dedupFirst (l : List String) : List String := dedupInto [] l

/-! ### Concrete instances (used to instantiate the theorems) -/

/-- A 16-byte digest whose four quartets pack to the values
`a`, `b`, `c`, `d` (all bytes `< 0x80`, so UTF-8 decoding is the
identity on them). -/
def q4 (a b c d : Nat) : List Nat :=
  [0, 0, 0, a, 0, 0, 0, b, 0, 0, 0, c, 0, 0, 0, d]

/-- A server record with equal host and id. -/
def srv (name : String) (w vn : Nat) : Server :=
  ⟨name, name, 0, w, vn⟩

/-- A table-driven substitutable digest function (the API admits custom
hash functions) for a three-server example with one vnode per server. -/
def hashA : String → List Nat := fun s =>
  if s = "k" then q4 50 0 0 0
  else if s = "a-0" then q4 10 11 12 13
  else if s = "b-0" then q4 60 61 62 63
  else if s = "c-0" then q4 30 31 32 33
  else List.replicate 16 0

/-- Three equal-weight servers, vnode count 1, default replicas 4:
twelve ring points. -/
def exA : HashRing :=
  mkHashRing [srv "a" 1 0, srv "b" 1 0, srv "c" 1 0] hashA { vnodeCount := some 1 }

/-- Digest table for the unequal-weight example: weights a:1 b:1 c:2 and
vnode count 4 give point counts a:3 b:3 c:6 with all three servers, but
a:4 b:4 once `c` is removed — `a-3` is a new point at 55…58. -/
def hashB : String → List Nat := fun s =>
  if s = "k" then q4 50 0 0 0
  else if s = "a-0" then q4 10 11 12 13
  else if s = "a-1" then q4 14 15 16 17
  else if s = "a-2" then q4 18 19 20 21
  else if s = "a-3" then q4 55 56 57 58
  else if s = "b-0" then q4 60 61 62 63
  else if s = "b-1" then q4 64 65 66 67
  else if s = "b-2" then q4 68 69 70 71
  else if s = "b-3" then q4 110 111 112 113
  else if s = "c-0" then q4 80 81 82 83
  else if s = "c-1" then q4 84 85 86 87
  else if s = "c-2" then q4 88 89 90 91
  else if s = "c-3" then q4 92 93 94 95
  else if s = "c-4" then q4 96 97 98 99
  else if s = "c-5" then q4 100 101 102 103
  else List.replicate 16 0

/-- Unequal weights: a:1, b:1, c:2, vnode count 4. -/
def exB : HashRing :=
  mkHashRing [srv "a" 1 0, srv "b" 1 0, srv "c" 2 0] hashB { vnodeCount := some 4 }

/-- Digest table for the vnode-override example. -/
def hashC : String → List Nat := fun s =>
  if s = "a-0" then q4 10 11 12 13
  else if s = "b-0" then q4 40 41 42 43
  else if s = "b-1" then q4 70 71 72 73
  else List.replicate 16 0

/-- Server `b` carries a vnode override of 2 (vnode count 1 otherwise):
point counts a:1, b:2, ring length 12. -/
def exC : HashRing :=
  mkHashRing [srv "a" 1 0, srv "b" 1 2] hashC { vnodeCount := some 1 }

/-- A digest function whose first byte is `0x80` — a byte value any real
digest (e.g. md5, whose digest of the empty string starts `0xd4`) can
produce. -/
def hashD : String → List Nat := fun _ =>
  128 :: 0 :: 0 :: 1 :: List.replicate 12 0

/-- The claimed raw-byte packing formula
`value = digest[o+3] + digest[o+2]*2^8 + digest[o+1]*2^16 + digest[o]*2^24`
applied directly to the digest byte sequence (spec §4.4's words). -/
def specRawCoordinate (bytes : List Nat) (o : Nat) : Nat :=
  (bytes.getD (o + 3) 0 + bytes.getD (o + 2) 0 * 2 ^ 8 +
    bytes.getD (o + 1) 0 * 2 ^ 16 + bytes.getD o 0 * 2 ^ 24) % 2 ^ 32

/-- An instance whose digest function is `hashD`. -/
def exD : HashRing := mkHashRing [srv "a" 1 0] hashD { vnodeCount := some 1 }

/-- An instance constructed from an empty server set. -/
def exEmpty : HashRing := mkHashRing [] hashA {}

/-- Three equal-weight servers with vnode count 7: in binary64
arithmetic `(1/3) * 7 * 3` evaluates just below 7, so the code places
`Math.floor` = 6 points per server where the exact formula gives 7.
The digest is irrelevant to the point counts. -/
def exF : HashRing :=
  mkHashRing [srv "a" 1 0, srv "b" 1 0, srv "c" 1 0] (fun _ => List.replicate 16 0)
    { vnodeCount := some 7 }

/-! ### Lemmas about the stable sort -/

theorem insertNode_perm (n : Node) (l : List Node) : (insertNode n l).Perm (n :: l) := by
  induction l with
  | nil => exact List.Perm.refl _
  | cons m ms ih =>
    simp only [insertNode]
    split
    · exact (ih.cons m).trans (List.Perm.swap n m ms)
    · exact List.Perm.refl _

theorem sortNodes_perm (l : List Node) : (sortNodes l).Perm l := by
  induction l with
  | nil => exact List.Perm.refl _
  | cons n ns ih => exact ((insertNode_perm n (sortNodes ns)).trans (ih.cons n))

theorem length_sortNodes (l : List Node) : (sortNodes l).length = l.length :=
  (sortNodes_perm l).length_eq

theorem mem_insertNode {x n : Node} {l : List Node} :
    x ∈ insertNode n l ↔ x = n ∨ x ∈ l := by
  rw [(insertNode_perm n l).mem_iff, List.mem_cons]

theorem insertNode_sorted {l : List Node} (n : Node) (h : RingSorted l) :
    RingSorted (insertNode n l) := by
  induction l with
  | nil => simp [insertNode, RingSorted]
  | cons m ms ih =>
    rw [RingSorted, List.pairwise_cons] at h
    simp only [insertNode]
    split
    · rename_i hlt
      rw [RingSorted, List.pairwise_cons]
      constructor
      · intro x hx
        rcases mem_insertNode.mp hx with rfl | hx
        · exact Nat.le_of_lt hlt
        · exact h.1 x hx
      · exact ih h.2
    · rename_i hge
      rw [RingSorted, List.pairwise_cons]
      refine ⟨?_, List.Pairwise.cons h.1 h.2⟩
      intro x hx
      rcases List.mem_cons.mp hx with rfl | hx
      · exact Nat.le_of_not_lt hge
      · exact Nat.le_trans (Nat.le_of_not_lt hge) (h.1 x hx)

theorem sortNodes_sorted (l : List Node) : RingSorted (sortNodes l) := by
  induction l with
  | nil => simp [sortNodes, RingSorted]
  | cons n ns ih => exact insertNode_sorted n ih

theorem insertNode_eq_cons {n : Node} {l : List Node}
    (h : ∀ x ∈ l, ¬x.value < n.value) : insertNode n l = n :: l := by
  cases l with
  | nil => rfl
  | cons m ms => simp [insertNode, h m (List.mem_cons_self m ms)]

theorem filter_insertNode (p : Node → Bool) {l : List Node} (n : Node) (hl : RingSorted l) :
    (insertNode n l).filter p =
      if p n then insertNode n (l.filter p) else l.filter p := by
  induction l with
  | nil =>
    by_cases hpn : p n <;> simp [insertNode, List.filter_cons, hpn]
  | cons m ms ih =>
    rw [RingSorted, List.pairwise_cons] at hl
    by_cases hcmp : m.value < n.value
    · simp only [insertNode, if_pos hcmp]
      rw [List.filter_cons, List.filter_cons]
      by_cases hpm : p m
      · by_cases hpn : p n <;>
          simp [hpm, hpn, ih hl.2, insertNode, if_pos hcmp]
      · by_cases hpn : p n <;> simp [hpm, hpn, ih hl.2]
    · simp only [insertNode, if_neg hcmp]
      rw [List.filter_cons]
      by_cases hpn : p n
      · rw [if_pos hpn, if_pos hpn]
        have : insertNode n (List.filter p (m :: ms)) = n :: List.filter p (m :: ms) := by
          apply insertNode_eq_cons
          intro x hx
          rcases List.mem_cons.mp (List.mem_of_mem_filter hx) with rfl | hx'
          · exact hcmp
          · exact fun hlt => hcmp (Nat.lt_of_le_of_lt (hl.1 x hx') hlt)
        rw [this, List.filter_cons]
      · rw [if_neg hpn, if_neg hpn, List.filter_cons]

theorem sortNodes_filter (p : Node → Bool) (l : List Node) :
    sortNodes (l.filter p) = (sortNodes l).filter p := by
  induction l with
  | nil => rfl
  | cons n ns ih =>
    rw [List.filter_cons]
    by_cases hpn : p n
    · simp only [if_pos hpn, sortNodes]
      rw [ih, filter_insertNode p n (sortNodes_sorted ns), if_pos hpn]
    · simp only [if_neg hpn, sortNodes]
      rw [ih, filter_insertNode p n (sortNodes_sorted ns), if_neg hpn]

/-! ### Lemmas about `firstGE` -/

theorem firstGE_lt_length {hv : Nat} {l : List Node} {k : Nat}
    (h : firstGE hv l = some k) : k < l.length := by
  induction l generalizing k with
  | nil => simp [firstGE] at h
  | cons n ns ih =>
    rw [firstGE] at h
    split at h
    · cases h; exact Nat.succ_pos _
    · cases hrec : firstGE hv ns with
      | none => rw [hrec] at h; simp at h
      | some j =>
        rw [hrec] at h
        simp only [Option.map_some'] at h
        cases h
        exact Nat.succ_lt_succ (ih hrec)

theorem firstGE_ge {hv : Nat} {l : List Node} {k : Nat}
    (h : firstGE hv l = some k) : hv ≤ (l.getD k nodeD).value := by
  induction l generalizing k with
  | nil => simp [firstGE] at h
  | cons n ns ih =>
    rw [firstGE] at h
    split at h
    · cases h; simpa using by assumption
    · cases hrec : firstGE hv ns with
      | none => rw [hrec] at h; simp at h
      | some j =>
        rw [hrec] at h
        simp only [Option.map_some'] at h
        cases h
        simpa using ih hrec

theorem firstGE_lt_before {hv : Nat} {l : List Node} {k : Nat}
    (h : firstGE hv l = some k) : ∀ j, j < k → (l.getD j nodeD).value < hv := by
  induction l generalizing k with
  | nil => simp [firstGE] at h
  | cons n ns ih =>
    rw [firstGE] at h
    split at h
    · cases h; intro j hj; exact absurd hj (Nat.not_lt_zero j)
    · rename_i hn
      cases hrec : firstGE hv ns with
      | none => rw [hrec] at h; simp at h
      | some i =>
        rw [hrec] at h
        simp only [Option.map_some'] at h
        cases h
        intro j hj
        cases j with
        | zero => simpa using Nat.lt_of_not_le hn
        | succ j' => simpa using ih hrec j' (Nat.lt_of_succ_lt_succ hj)

theorem firstGE_le_of {hv : Nat} {l : List Node} {k : Nat}
    (hk : k < l.length) (h : hv ≤ (l.getD k nodeD).value) :
    ∃ j, firstGE hv l = some j ∧ j ≤ k := by
  induction l generalizing k with
  | nil => exact absurd hk (Nat.not_lt_zero k)
  | cons n ns ih =>
    by_cases hn : hv ≤ n.value
    · exact ⟨0, by simp [firstGE, hn], Nat.zero_le k⟩
    · cases k with
      | zero => simp only [List.getD_cons_zero] at h; exact absurd h hn
      | succ k' =>
        simp only [List.getD_cons_succ] at h
        obtain ⟨j, hj, hjk⟩ := ih (Nat.lt_of_succ_lt_succ hk) h
        exact ⟨j + 1, by simp [firstGE, hn, hj], Nat.succ_le_succ hjk⟩

theorem firstGE_none_iff {hv : Nat} {l : List Node} :
    firstGE hv l = none ↔ ∀ n ∈ l, n.value < hv := by
  induction l with
  | nil => simp [firstGE]
  | cons n ns ih =>
    by_cases hn : hv ≤ n.value
    · constructor
      · intro h; rw [firstGE, if_pos hn] at h; simp at h
      · intro h; exact absurd (h n (List.mem_cons_self n ns)) (Nat.not_lt.mpr hn)
    · rw [firstGE, if_neg hn, Option.map_eq_none', ih]
      constructor
      · intro h x hx
        rcases List.mem_cons.mp hx with rfl | hx'
        · exact Nat.lt_of_not_le hn
        · exact h x hx'
      · intro h x hx
        exact h x (List.mem_cons_of_mem n hx)

/-- Value monotonicity along a sorted ring (via `getD`). -/
theorem sorted_value_le {l : List Node} (h : RingSorted l) {i j : Nat}
    (hij : i ≤ j) (hj : j < l.length) :
    (l.getD i nodeD).value ≤ (l.getD j nodeD).value := by
  rcases Nat.lt_or_eq_of_le hij with hlt | rfl
  · have hi : i < l.length := Nat.lt_trans hlt hj
    rw [List.getD_eq_get _ _ hi, List.getD_eq_get _ _ hj]
    exact List.pairwise_iff_get.mp h ⟨i, hi⟩ ⟨j, hj⟩ hlt
  · exact Nat.le_refl _

theorem firstGE_eq_some {hv : Nat} {l : List Node} {k : Nat}
    (hk : k < l.length) (hge : hv ≤ (l.getD k nodeD).value)
    (hbefore : ∀ j, j < k → (l.getD j nodeD).value < hv) : firstGE hv l = some k := by
  obtain ⟨j, hj, hjk⟩ := firstGE_le_of hk hge
  rcases Nat.lt_or_eq_of_le hjk with hlt | rfl
  · have h1 := firstGE_ge hj
    have h2 := hbefore j hlt
    omega
  · exact hj

/-! ### Correctness and termination of the `find` binary search -/

/-- The `while (true)` loop of `find`, run with the invariant that any
answer index lies in `[low, high]` (or is 0) and enough fuel, returns
the index of the first point with coordinate ≥ `hv`, and 0 when there is
none (the circular wraparound). -/
theorem findLoop_correct (ring : List Node) (hv : Nat) (hsort : RingSorted ring) :
    ∀ (fuel : Nat) (low high : Int), 0 ≤ low → low ≤ high →
      high ≤ (ring.length : Int) →
      (high - low).toNat < fuel →
      (∀ k, firstGE hv ring = some k → ((low ≤ (k : Int) ∧ (k : Int) ≤ high) ∨ k = 0)) →
      findLoop ring ring.length hv low high fuel = some ((firstGE hv ring).getD 0) := by
  intro fuel
  induction fuel with
  | zero => intro low high _ _ _ hfuel _; omega
  | succ fuel ih =>
    intro low high h0 hlh hhs hfuel hinv
    rw [findLoop]
    set mid : Int := (low + high) / 2 with hmiddef
    have hmid0 : 0 ≤ mid := by omega
    have hmidlow : low ≤ mid := by omega
    have hmidhigh : mid ≤ high := by omega
    by_cases hms : mid = (ring.length : Int)
    · rw [if_pos hms]
      cases hfst : firstGE hv ring with
      | none => rfl
      | some k =>
        have hk := firstGE_lt_length hfst
        rcases hinv k hfst with ⟨hk1, hk2⟩ | rfl
        · exfalso; omega
        · rfl
    · rw [if_neg hms]
      have hmidlt : mid < (ring.length : Int) := by omega
      have hmidn : ((mid.toNat : Nat) : Int) = mid := Int.toNat_of_nonneg hmid0
      have hmidnlt : mid.toNat < ring.length := by omega
      by_cases hcond : hv ≤ (ring.getD mid.toNat nodeD).value ∧
          (if mid = 0 then 0 else (ring.getD (mid.toNat - 1) nodeD).value) < hv
      · rw [if_pos hcond]
        have hfst : firstGE hv ring = some mid.toNat := by
          apply firstGE_eq_some hmidnlt hcond.1
          intro j hj
          have hmidz : ¬(mid = 0) := by omega
          rw [if_neg hmidz] at hcond
          have hle : (ring.getD j nodeD).value ≤ (ring.getD (mid.toNat - 1) nodeD).value :=
            sorted_value_le hsort (by omega) (by omega)
          exact Nat.lt_of_le_of_lt hle hcond.2
        rw [hfst]; rfl
      · rw [if_neg hcond]
        by_cases hmlt : (ring.getD mid.toNat nodeD).value < hv
        · rw [if_pos hmlt]
          have hinv' : ∀ k, firstGE hv ring = some k →
              ((mid + 1 ≤ (k : Int) ∧ (k : Int) ≤ high) ∨ k = 0) := by
            intro k hfst
            rcases hinv k hfst with ⟨hk1, hk2⟩ | rfl
            · left
              refine ⟨?_, hk2⟩
              by_contra hle
              have hkle : k ≤ mid.toNat := by omega
              have hmono := sorted_value_le hsort hkle hmidnlt
              have hge := firstGE_ge hfst
              omega
            · right; rfl
          by_cases hstop : mid + 1 > high
          · rw [if_pos hstop]
            cases hfst : firstGE hv ring with
            | none => rfl
            | some k =>
              rcases hinv' k hfst with ⟨hk1, hk2⟩ | rfl
              · exfalso; omega
              · rfl
          · rw [if_neg hstop]
            exact ih (mid + 1) high (by omega) (by omega) hhs (by omega) hinv'
        · rw [if_neg hmlt]
          have hvmid : hv ≤ (ring.getD mid.toNat nodeD).value := Nat.le_of_not_lt hmlt
          by_cases hmz : mid = 0
          · have hv0 : hv = 0 := by
              by_contra hne
              exact hcond ⟨hvmid, by rw [if_pos hmz]; omega⟩
            have hstop : low > mid - 1 := by omega
            rw [if_pos hstop]
            obtain ⟨j, hj, hj0⟩ :=
              firstGE_le_of (l := ring) (k := 0) (by omega) (hv0 ▸ Nat.zero_le _)
            have : j = 0 := Nat.le_zero.mp hj0
            subst this
            rw [hj]
            rfl
          · have hprev : hv ≤ (ring.getD (mid.toNat - 1) nodeD).value := by
              by_contra hlt
              exact hcond ⟨hvmid, by rw [if_neg hmz]; omega⟩
            obtain ⟨k0, hk0, hk0le⟩ :=
              firstGE_le_of (l := ring) (k := mid.toNat - 1) (by omega) hprev
            have hinv' : ∀ k, firstGE hv ring = some k →
                ((low ≤ (k : Int) ∧ (k : Int) ≤ mid - 1) ∨ k = 0) := by
              intro k hfst
              have hkk : k = k0 := by
                rw [hfst] at hk0
                exact Option.some.inj hk0
              subst hkk
              rcases hinv k hfst with ⟨hk1, hk2⟩ | rfl
              · left; exact ⟨hk1, by omega⟩
              · right; rfl
            by_cases hstop : low > mid - 1
            · rw [if_pos hstop]
              cases hfst : firstGE hv ring with
              | none => rfl
              | some k =>
                rcases hinv' k hfst with ⟨hk1, hk2⟩ | rfl
                · exfalso; omega
                · rfl
            · rw [if_neg hstop]
              exact ih low (mid - 1) h0 (by omega) (by omega) (by omega) hinv'

/-- `find` computed on a well-formed state is the first index with
coordinate ≥ `hv`, else 0. -/
theorem find_eq_firstGE {r : HashRing} (hsize : r.size = r.ring.length)
    (hsort : RingSorted r.ring) (hv : Nat) :
    r.find hv = (firstGE hv r.ring).getD 0 := by
  unfold find
  rw [hsize]
  rw [findLoop_correct r.ring hv hsort (r.ring.length + 1) 0 (r.ring.length : Int)
    (Int.le_refl 0) (by omega) (by omega) (by omega) ?_]
  · rfl
  · intro k hk
    have := firstGE_lt_length hk
    left
    omega

/-- The loop finishes within `size + 1` iterations on a well-formed
state (the fuel used by `find` is never exhausted). -/
theorem findLoop_terminates {r : HashRing} (hsize : r.size = r.ring.length)
    (hsort : RingSorted r.ring) (hv : Nat) :
    findLoop r.ring r.size hv 0 (r.size : Int) (r.size + 1) =
      some ((firstGE hv r.ring).getD 0) := by
  rw [hsize]
  exact findLoop_correct r.ring hv hsort (r.ring.length + 1) 0 (r.ring.length : Int)
    (Int.le_refl 0) (by omega) (by omega) (by omega)
    (fun k hk => by have := firstGE_lt_length hk; left; omega)

/-- The index `find` returns is in range on a non-empty ring. -/
theorem find_lt_length {r : HashRing} (hsize : r.size = r.ring.length)
    (hsort : RingSorted r.ring) (hne : r.ring ≠ []) (hv : Nat) :
    r.find hv < r.ring.length := by
  rw [find_eq_firstGE hsize hsort]
  cases hfst : firstGE hv r.ring with
  | none =>
    simp only [Option.getD_none]
    exact List.length_pos.mpr hne
  | some k =>
    simp only [Option.getD_some]
    exact firstGE_lt_length hfst

/-! ### Arithmetic bridge for the exact reading of the claims' formula -/

/-- For natural weights `exactServerLength`'s natural division is
exactly the exact-arithmetic value `⌊(w / W) * v * c⌋` of the claims'
formula (division by a zero total also agrees: both sides are 0). -/
theorem exactServerLength_eq_floor (w W v c : Nat) :
    (exactServerLength w W v c : ℤ) = ⌊(w : ℚ) / (W : ℚ) * (v : ℚ) * (c : ℚ)⌋ := by
  have hq : (w : ℚ) / (W : ℚ) * (v : ℚ) * (c : ℚ) =
      ((w * v * c : ℕ) : ℚ) / ((W : ℕ) : ℚ) := by
    push_cast
    ring
  have hpos : 0 ≤ (w : ℚ) / (W : ℚ) * (v : ℚ) * (c : ℚ) := by
    rw [hq]
    positivity
  rw [← Int.natCast_floor_eq_floor hpos, hq, Nat.floor_div_eq_div]
  norm_cast

/-! ### Structure of `continuum` -/

theorem continuum_servers (r : HashRing) : r.continuum.servers = r.servers := by
  unfold continuum; split <;> rfl

theorem continuum_vnodes (r : HashRing) : r.continuum.vnodes = r.vnodes := by
  unfold continuum; split <;> rfl

theorem continuum_cache (r : HashRing) : r.continuum.cache = r.cache := by
  unfold continuum; split <;> rfl

theorem continuum_hash (r : HashRing) : r.continuum.hash = r.hash := by
  unfold continuum; split <;> rfl

/-- With an empty ring (true at every call site: constructor, and
`add`/`remove` after `reset`), `continuum` installs the sorted generated
points and a consistent `size`. -/
theorem continuum_ring {r : HashRing} (h : r.ring = []) (hsz : r.size = 0) :
    r.continuum.ring = sortNodes r.genPoints ∧ r.continuum.size = r.continuum.ring.length := by
  unfold continuum
  by_cases hs : r.servers.isEmpty
  · rw [if_pos hs]
    have hserv : r.servers = [] := List.isEmpty_iff.mp hs
    have hgen : r.genPoints = [] := by
      unfold genPoints
      rw [hserv]
      rfl
    refine ⟨?_, ?_⟩
    · rw [h, hgen]; rfl
    · rw [h, hsz]; rfl
  · rw [if_neg hs]
    refine ⟨?_, rfl⟩
    rw [h]
    simp

theorem length_flatMap_const {α β : Type} (l : List α) (f : α → List β) (c : Nat)
    (h : ∀ a ∈ l, (f a).length = c) : (l.flatMap f).length = l.length * c := by
  induction l with
  | nil => simp
  | cons x xs ih =>
    rw [List.flatMap_cons, List.length_append, h x (List.mem_cons_self x xs),
      ih fun a ha => h a (List.mem_cons_of_mem x ha), List.length_cons, Nat.succ_mul,
      Nat.add_comm]

theorem length_pointsFor (hash : String → List Nat) (replicas len : Nat) (name : String) :
    (pointsFor hash replicas len name).length = len * replicas := by
  unfold pointsFor
  rw [length_flatMap_const _ _ replicas (fun a _ => by simp), List.length_range]

theorem length_genPoints (r : HashRing) : r.genPoints.length = r.formulaSum := by
  unfold genPoints formulaSum
  rw [List.length_flatMap]
  congr 1
  apply List.map_congr_left
  intro s _
  exact length_pointsFor _ _ _ _

/-- `formulaSum` only reads `servers`, `vnodes`, `vnode` and
`replicas`. -/
theorem formulaSum_continuum (r : HashRing) : r.continuum.formulaSum = r.formulaSum := by
  unfold continuum; split <;> rfl

/-- The C3 ring invariant holds after running `continuum` from a clear
ring. -/
theorem ringInv_continuum {r : HashRing} (h : r.ring = []) (hsz : r.size = 0) :
    ringInv r.continuum := by
  obtain ⟨hring, hsize⟩ := continuum_ring h hsz
  refine ⟨?_, hsize, ?_⟩
  · rw [hring]; exact sortNodes_sorted _
  · rw [hring, length_sortNodes, length_genPoints, formulaSum_continuum]

/-! ### Association list helpers -/

theorem lookup_mem {α β : Type} [BEq α] [LawfulBEq α] {k : α} {v : β}
    {l : List (α × β)} (h : List.lookup k l = some v) : (k, v) ∈ l := by
  induction l with
  | nil => simp at h
  | cons p ps ih =>
    obtain ⟨a, b⟩ := p
    rw [List.lookup_cons] at h
    cases hb : k == a
    · rw [hb] at h
      exact List.mem_cons_of_mem _ (ih h)
    · rw [hb] at h
      have hab : k = a := eq_of_beq hb
      have hv : b = v := by simpa using h
      subst hab
      subst hv
      exact List.mem_cons_self _ _

theorem lookup_eraseKey_self (m : List (String × Nat)) (k : String) :
    List.lookup k (eraseKey m k) = none := by
  induction m with
  | nil => rfl
  | cons p ps ih =>
    obtain ⟨a, b⟩ := p
    unfold eraseKey at ih ⊢
    rw [List.filter_cons]
    by_cases hp : a = k
    · rw [if_neg (by simp [hp])]
      exact ih
    · rw [if_pos (by simp [hp]), List.lookup_cons,
        show (k == a) = false from beq_eq_false_iff_ne.mpr fun e => hp e.symm]
      exact ih

theorem lookup_eraseKey_ne (m : List (String × Nat)) {k k' : String} (h : k' ≠ k) :
    List.lookup k' (eraseKey m k) = List.lookup k' m := by
  induction m with
  | nil => rfl
  | cons p ps ih =>
    obtain ⟨a, b⟩ := p
    unfold eraseKey at ih ⊢
    rw [List.filter_cons]
    by_cases hp : a = k
    · rw [if_neg (by simp [hp]), List.lookup_cons,
        show (k' == a) = false from beq_eq_false_iff_ne.mpr (hp ▸ h)]
      exact ih
    · rw [if_pos (by simp [hp]), List.lookup_cons, List.lookup_cons]
      cases hb : k' == a
      · exact ih
      · rfl

theorem lookup_map_upd_ne {α β : Type} [BEq α] [LawfulBEq α]
    (m : List (α × β)) {k k' : α} (v : β) (h : k' ≠ k) :
    List.lookup k' (m.map fun p => if p.1 == k then (k, v) else p) = List.lookup k' m := by
  induction m with
  | nil => rfl
  | cons p ps ih =>
    obtain ⟨a, b⟩ := p
    rw [List.map_cons]
    by_cases hak : (a == k) = true
    · have ha : a = k := eq_of_beq hak
      rw [if_pos (by simpa using hak), List.lookup_cons, List.lookup_cons,
        show (k' == k) = false from beq_eq_false_iff_ne.mpr h,
        show (k' == a) = false from beq_eq_false_iff_ne.mpr (ha ▸ h)]
      exact ih
    · rw [if_neg (by simpa using hak), List.lookup_cons, List.lookup_cons]
      cases hb : k' == a
      · exact ih
      · rfl

theorem lookup_append_single_ne {α β : Type} [BEq α] [LawfulBEq α]
    (m : List (α × β)) {k k' : α} (v : β) (h : k' ≠ k) :
    List.lookup k' (m ++ [(k, v)]) = List.lookup k' m := by
  induction m with
  | nil =>
    rw [List.nil_append, List.lookup_cons,
      show (k' == k) = false from beq_eq_false_iff_ne.mpr h]
  | cons p ps ih =>
    obtain ⟨a, b⟩ := p
    rw [List.cons_append, List.lookup_cons, List.lookup_cons]
    cases hb : k' == a
    · exact ih
    · rfl

theorem lookup_setKey_ne (m : List (String × Nat)) {k k' : String} (v : Nat) (h : k' ≠ k) :
    List.lookup k' (setKey m k v) = List.lookup k' m := by
  unfold setKey
  split
  · exact lookup_map_upd_ne m v h
  · exact lookup_append_single_ne m v h

/-! ### `get`, the cache and `mapsTo` -/

theorem getCompute_fst (r : HashRing) (key : String) :
    (r.getCompute key).1 = r.mapsTo key := by
  unfold getCompute mapsTo
  cases hget : r.ring.get? (r.find (r.hashValue key)) <;> simp [hget]

theorem getCompute_snd_cacheOK {r : HashRing} (h : cacheOK r) (key : String) :
    cacheOK (r.getCompute key).2 := by
  unfold getCompute
  cases hget : r.ring.get? (r.find (r.hashValue key)) with
  | none => exact h
  | some node =>
    have hmt : r.mapsTo key = some node.server := by
      unfold mapsTo
      rw [hget]
      rfl
    intro p hp
    show r.mapsTo p.1 = some p.2
    simp only [cacheSet] at hp
    split at hp
    · obtain ⟨q, hq, hfq⟩ := List.mem_map.mp hp
      by_cases hqk : (q.1 == key) = true
      · rw [if_pos hqk] at hfq
        rw [← hfq]
        exact hmt
      · rw [if_neg hqk] at hfq
        rw [← hfq]
        exact h q hq
    · rcases List.mem_append.mp hp with hq | hq
      · exact h p hq
      · have : p = (key, node.server) := by simpa using hq
        rw [this]
        exact hmt

theorem get_fst {r : HashRing} (h : cacheOK r) (key : String) :
    (r.get key).1 = r.mapsTo key := by
  unfold get
  cases hc : List.lookup key r.cache with
  | none => exact getCompute_fst r key
  | some v =>
    show (if v = "" then r.getCompute key else (some v, r)).1 = r.mapsTo key
    by_cases hv : v = ""
    · rw [if_pos hv]
      exact getCompute_fst r key
    · rw [if_neg hv]
      exact (h (key, v) (lookup_mem hc)).symm

theorem get_snd_cacheOK {r : HashRing} (h : cacheOK r) (key : String) :
    cacheOK (r.get key).2 := by
  unfold get
  cases hc : List.lookup key r.cache with
  | none => exact getCompute_snd_cacheOK h key
  | some v =>
    show cacheOK (if v = "" then r.getCompute key else (some v, r)).2
    by_cases hv : v = ""
    · rw [if_pos hv]
      exact getCompute_snd_cacheOK h key
    · rw [if_neg hv]
      exact h

theorem get_snd_mapsTo (r : HashRing) (key k' : String) :
    ((r.get key).2).mapsTo k' = r.mapsTo k' := by
  unfold get getCompute
  cases List.lookup key r.cache with
  | none => cases r.ring.get? (r.find (r.hashValue key)) <;> rfl
  | some v =>
    show mapsTo (if v = "" then r.getCompute key else (some v, r)).2 k' = r.mapsTo k'
    by_cases hv : v = ""
    · rw [if_pos hv]
      unfold getCompute
      cases r.ring.get? (r.find (r.hashValue key)) <;> rfl
    · rw [if_neg hv]

theorem mkHashRing_cache (servers : List Server) (hash : String → List Nat)
    (opts : RingOptions) : (mkHashRing servers hash opts).cache = [] := by
  unfold mkHashRing
  rw [continuum_cache]

theorem mk_cacheOK (servers : List Server) (hash : String → List Nat)
    (opts : RingOptions) : cacheOK (mkHashRing servers hash opts) := by
  intro p hp
  rw [mkHashRing_cache] at hp
  simp at hp

/-! ### `swap` -/

theorem findLoop_congr_values {ring ring' : List Node}
    (hval : ∀ i, (ring'.getD i nodeD).value = (ring.getD i nodeD).value) (size hv : Nat) :
    ∀ (fuel : Nat) (low high : Int),
      findLoop ring' size hv low high fuel = findLoop ring size hv low high fuel := by
  intro fuel
  induction fuel with
  | zero => intro low high; rfl
  | succ fuel ih =>
    intro low high
    rw [findLoop]
    conv_rhs => rw [findLoop]
    simp only [hval]
    split_ifs <;> first | rfl | exact ih _ _

theorem swap_ring_getD_value (r : HashRing) (f t : String) (i : Nat) :
    (((r.swap f t).ring).getD i nodeD).value = ((r.ring).getD i nodeD).value := by
  show ((r.ring.map _).getD i nodeD).value = _
  rw [List.getD_eq_get?, List.getD_eq_get?, List.get?_map]
  cases r.ring.get? i with
  | none => rfl
  | some n => by_cases hn : n.server = f <;> simp [hn]

theorem find_swap (r : HashRing) (f t : String) (hv : Nat) :
    (r.swap f t).find hv = r.find hv := by
  unfold find
  have hsz : (r.swap f t).size = r.size := rfl
  rw [hsz, findLoop_congr_values (fun i => swap_ring_getD_value r f t i) _ _]

theorem mapsTo_swap (r : HashRing) (f t key : String) :
    (r.swap f t).mapsTo key = (r.mapsTo key).map fun v => if v = f then t else v := by
  unfold mapsTo
  have hhv : (r.swap f t).hashValue key = r.hashValue key := rfl
  rw [hhv, find_swap]
  show ((r.ring.map _).get? (r.find (r.hashValue key))).map _ = _
  rw [List.get?_map]
  cases r.ring.get? (r.find (r.hashValue key)) with
  | none => rfl
  | some n => by_cases hn : n.server = f <;> simp [hn]

theorem swap_cacheOK {r : HashRing} (h : cacheOK r) (f t : String) :
    cacheOK (r.swap f t) := by
  intro p hp
  have hc : (r.swap f t).cache = r.cache.map fun p => if p.2 = f then (p.1, t) else p := rfl
  rw [hc] at hp
  obtain ⟨q, hq, hfq⟩ := List.mem_map.mp hp
  have hmq := h q hq
  by_cases hqf : q.2 = f
  · rw [if_pos hqf] at hfq
    rw [← hfq]
    show (r.swap f t).mapsTo q.1 = some t
    rw [mapsTo_swap, hmq]
    simp [hqf]
  · rw [if_neg hqf] at hfq
    rw [← hfq]
    show (r.swap f t).mapsTo q.1 = some q.2
    rw [mapsTo_swap, hmq]
    simp [hqf]

/-! ### Owner preservation when another server's points disappear -/

/-- The ring entry `get`/`mapsTo` resolve: first point with coordinate
≥ `hv`, wrapping around to the ring's first point. -/
def ownerNode (l : List Node) (hv : Nat) : Option Node :=
  l.get? ((firstGE hv l).getD 0)

theorem mapsTo_eq_ownerNode {r : HashRing} (hsize : r.size = r.ring.length)
    (hsort : RingSorted r.ring) (key : String) :
    r.mapsTo key = (ownerNode r.ring (r.hashValue key)).map fun n => n.server := by
  unfold mapsTo ownerNode
  rw [find_eq_firstGE hsize hsort]

theorem firstGE_none_iff_find? (hv : Nat) (l : List Node) :
    firstGE hv l = none ↔ l.find? (fun n => decide (hv ≤ n.value)) = none := by
  rw [firstGE_none_iff, List.find?_eq_none]
  constructor
  · intro h x hx
    simp only [decide_eq_true_eq]
    exact Nat.not_le.mpr (h x hx)
  · intro h x hx
    have := h x hx
    simp only [decide_eq_true_eq] at this
    exact Nat.lt_of_not_le this

theorem ownerNode_eq_find? (l : List Node) (hv : Nat) :
    ownerNode l hv =
      match l.find? (fun n => decide (hv ≤ n.value)) with
      | some q => some q
      | none => l.head? := by
  induction l with
  | nil => rfl
  | cons n ns ih =>
    unfold ownerNode at ih ⊢
    rw [firstGE]
    by_cases hn : hv ≤ n.value
    · rw [if_pos hn, List.find?_cons_of_pos _ (by simpa using hn)]
      rfl
    · rw [if_neg hn, List.find?_cons_of_neg _ (by simpa using hn)]
      cases hrec : firstGE hv ns with
      | none =>
        rw [(firstGE_none_iff_find? hv ns).mp hrec]
        rfl
      | some j =>
        cases hf : ns.find? (fun n => decide (hv ≤ n.value)) with
        | none =>
          rw [← firstGE_none_iff_find?, hrec] at hf
          exact Option.noConfusion hf
        | some q =>
          rw [hrec, hf] at ih
          have ih' : ns.get? j = some q := ih
          show (n :: ns).get? (((some j).map (· + 1)).getD 0) = some q
          simp only [Option.map_some', Option.getD_some, List.get?_cons_succ]
          exact ih'

theorem find?_filter_some {l : List Node} {p pr : Node → Bool} {q : Node}
    (h : l.find? p = some q) (hq : pr q = true) :
    (l.filter pr).find? p = some q := by
  induction l with
  | nil => simp at h
  | cons x xs ih =>
    rw [List.filter_cons]
    by_cases hpx : p x
    · rw [List.find?_cons_of_pos _ hpx] at h
      have hx : x = q := by simpa using h
      subst hx
      rw [if_pos hq, List.find?_cons_of_pos _ hpx]
    · rw [List.find?_cons_of_neg _ hpx] at h
      by_cases hprx : pr x
      · rw [if_pos hprx, List.find?_cons_of_neg _ hpx]
        exact ih h
      · rw [if_neg hprx]
        exact ih h

theorem find?_filter_none {l : List Node} {p pr : Node → Bool}
    (h : l.find? p = none) : (l.filter pr).find? p = none := by
  rw [List.find?_eq_none] at h ⊢
  intro x hx
  exact h x (List.mem_of_mem_filter hx)

theorem head?_filter {l : List Node} {pr : Node → Bool} {q : Node}
    (h : l.head? = some q) (hq : pr q = true) :
    (l.filter pr).head? = some q := by
  cases l with
  | nil => simp at h
  | cons x xs =>
    have hx : x = q := by simpa using h
    subst hx
    rw [List.filter_cons, if_pos hq]
    rfl

/-- If the owner of `hv` is not `s`, then removing all of `s`'s points
leaves the owner unchanged. -/
theorem ownerNode_filter {l : List Node} {hv : Nat} {q : Node} {s : String}
    (h : ownerNode l hv = some q) (hq : q.server ≠ s) :
    ownerNode (l.filter fun n => n.server ≠ s) hv = some q := by
  rw [ownerNode_eq_find?] at h ⊢
  have hqb : (fun n : Node => decide (n.server ≠ s)) q = true := by
    simpa using hq
  cases hf : l.find? (fun n => decide (hv ≤ n.value)) with
  | some q' =>
    rw [hf] at h
    have h' : some q' = some q := h
    have : q' = q := Option.some.inj h'
    subst this
    rw [find?_filter_some hf hqb]
  | none =>
    rw [hf] at h
    have h' : l.head? = some q := h
    rw [find?_filter_none hf]
    exact head?_filter h' hqb

theorem ownerNode_none_iff (l : List Node) (hv : Nat) :
    ownerNode l hv = none ↔ l = [] := by
  constructor
  · intro h
    cases l with
    | nil => rfl
    | cons n ns =>
      exfalso
      unfold ownerNode at h
      cases hfst : firstGE hv (n :: ns) with
      | none => rw [hfst] at h; simp at h
      | some k =>
        rw [hfst] at h
        simp only [Option.getD_some] at h
        rw [List.get?_eq_none] at h
        exact absurd (firstGE_lt_length hfst) (Nat.not_lt.mpr h)
  · intro h
    subst h
    rfl

/-! ### Structure of `remove` -/

/-- Every point `pointsFor` generates carries its server's id. -/
theorem pointsFor_server {hash : String → List Nat} {replicas len : Nat} {name : String}
    {n : Node} (hn : n ∈ pointsFor hash replicas len name) : n.server = name := by
  unfold pointsFor at hn
  obtain ⟨i, _, hn⟩ := List.mem_flatMap.mp hn
  obtain ⟨j, _, rfl⟩ := List.mem_map.mp hn
  rfl

theorem filter_pointsFor (hash : String → List Nat) (replicas len : Nat) (name s : String) :
    (pointsFor hash replicas len name).filter (fun n => n.server ≠ s) =
      if name = s then [] else pointsFor hash replicas len name := by
  by_cases hns : name = s
  · rw [if_pos hns]
    rw [List.filter_eq_nil_iff]
    intro n hn
    simp [pointsFor_server hn, hns]
  · rw [if_neg hns]
    rw [List.filter_eq_self]
    intro n hn
    simp [pointsFor_server hn, hns]

theorem flatMap_filter_eq {α β : Type} (l : List α) (pr : α → Bool) (g h : α → List β)
    (hg : ∀ t ∈ l, pr t = true → g t = h t)
    (hnil : ∀ t ∈ l, pr t = false → h t = []) :
    (l.filter pr).flatMap g = l.flatMap h := by
  induction l with
  | nil => rfl
  | cons x xs ih =>
    rw [List.filter_cons, List.flatMap_cons]
    have ihx := ih (fun t ht => hg t (List.mem_cons_of_mem x ht))
      (fun t ht => hnil t (List.mem_cons_of_mem x ht))
    by_cases hpx : pr x = true
    · rw [if_pos hpx, List.flatMap_cons, hg x (List.mem_cons_self x xs) hpx, ihx]
    · have hfalse : pr x = false := by simpa using hpx
      rw [if_neg hpx, hnil x (List.mem_cons_self x xs) hfalse, List.nil_append]
      exact ihx

/-- Congruence: `genPoints` reads only `servers`, `vnodes`, `vnode`,
`hash` and `replicas`. -/
theorem genPoints_congr {r₁ r₂ : HashRing} (hs : r₁.servers = r₂.servers)
    (hv : r₁.vnodes = r₂.vnodes) (hb : r₁.vnode = r₂.vnode) (hh : r₁.hash = r₂.hash)
    (hr : r₁.replicas = r₂.replicas) : r₁.genPoints = r₂.genPoints := by
  unfold genPoints vnodesFor
  simp only [hs, hv, hb, hh, hr]

/-- Congruence: `mapsTo` reads only `ring`, `size` and `hash`. -/
theorem mapsTo_congr {r₁ r₂ : HashRing} (hring : r₁.ring = r₂.ring)
    (hsize : r₁.size = r₂.size) (hh : r₁.hash = r₂.hash) (key : String) :
    r₁.mapsTo key = r₂.mapsTo key := by
  unfold mapsTo find hashValue digest digestBytes
  simp only [hring, hsize, hh]

/-- The vnode lookup `remove` leaves for every remaining server. -/
theorem vnodesFor_eraseKey {r : HashRing} {s name : String} (c : List (String × String))
    (sv : List Server) (h : name ≠ s) :
    vnodesFor
      { r with
        vnodes := eraseKey r.vnodes s
        servers := sv
        ring := []
        size := 0
        cache := c } name = r.vnodesFor name := by
  unfold vnodesFor
  simp only
  rw [lookup_eraseKey_ne _ h]

/-- After `remove s` under the per-server point-count preservation
hypothesis, the generated points are exactly the old ones minus `s`'s. -/
theorem remove_genPoints (r : HashRing) (s : String)
    (hlen : ∀ t ∈ r.servers, t.string ≠ s →
      serverLength t.weight (totalWeight (r.servers.filter fun u => u.string ≠ s))
          (r.vnodesFor t.string) (r.servers.filter fun u => u.string ≠ s).length =
        serverLength t.weight (totalWeight r.servers) (r.vnodesFor t.string)
          r.servers.length) :
    (reset
      { r with
        vnodes := eraseKey r.vnodes s
        servers := r.servers.filter fun u => u.string ≠ s }).genPoints =
      r.genPoints.filter fun n => n.server ≠ s := by
  unfold genPoints
  rw [List.filter_flatMap]
  simp only [reset]
  apply flatMap_filter_eq
  · intro t ht hts
    have hts' : t.string ≠ s := by simpa using hts
    have hvn := vnodesFor_eraseKey (r := r) []
      (r.servers.filter fun u => u.string ≠ s) hts'
    rw [hvn, hlen t ht hts', filter_pointsFor, if_neg hts']
  · intro t ht hts
    have hts' : t.string = s := by simpa using hts
    rw [filter_pointsFor, if_pos hts']

theorem remove_servers (r : HashRing) (s : String) :
    (r.remove s).servers = r.servers.filter fun t => t.string ≠ s := by
  unfold remove
  rw [continuum_servers]
  rfl

theorem remove_vnodes (r : HashRing) (s : String) :
    (r.remove s).vnodes = eraseKey r.vnodes s := by
  unfold remove
  rw [continuum_vnodes]
  rfl

theorem remove_hash (r : HashRing) (s : String) : (r.remove s).hash = r.hash := by
  unfold remove
  rw [continuum_hash]
  rfl

/-- After `remove s` from a canonical state with per-server point counts
preserved, the ring is the old ring minus `s`'s points (stable sorting
commutes with the filter). -/
theorem remove_ring {r : HashRing} (s : String) (hcan : canonicalRing r)
    (hlen : ∀ t ∈ r.servers, t.string ≠ s →
      serverLength t.weight (totalWeight (r.servers.filter fun u => u.string ≠ s))
          (r.vnodesFor t.string) (r.servers.filter fun u => u.string ≠ s).length =
        serverLength t.weight (totalWeight r.servers) (r.vnodesFor t.string)
          r.servers.length) :
    (r.remove s).ring = r.ring.filter (fun n => n.server ≠ s) ∧
      (r.remove s).size = (r.remove s).ring.length := by
  unfold remove
  obtain ⟨hr, hs⟩ := continuum_ring (r := reset
    { r with
      vnodes := eraseKey r.vnodes s
      servers := r.servers.filter fun u => u.string ≠ s }) rfl rfl
  refine ⟨?_, hs⟩
  rw [hr, remove_genPoints r s hlen, sortNodes_filter, ← hcan.1]

/-- The heart of the minimal-disruption property: a key whose owner is
not `s` keeps its owner across `remove s`, provided every remaining
server keeps its point count. -/
theorem mapsTo_remove {r : HashRing} {s : String} (key : String) (hcan : canonicalRing r)
    (hlen : ∀ t ∈ r.servers, t.string ≠ s →
      serverLength t.weight (totalWeight (r.servers.filter fun u => u.string ≠ s))
          (r.vnodesFor t.string) (r.servers.filter fun u => u.string ≠ s).length =
        serverLength t.weight (totalWeight r.servers) (r.vnodesFor t.string)
          r.servers.length)
    (howner : r.mapsTo key ≠ some s) :
    (r.remove s).mapsTo key = r.mapsTo key := by
  have hsort : RingSorted r.ring := by
    rw [hcan.1]
    exact sortNodes_sorted _
  have hsize := hcan.2
  obtain ⟨hring, hsize'⟩ := remove_ring s hcan hlen
  have hsort' : RingSorted (r.remove s).ring := by
    rw [hring]
    exact List.Pairwise.filter _ hsort
  have hhv : (r.remove s).hashValue key = r.hashValue key := by
    unfold hashValue digest digestBytes
    rw [remove_hash]
  rw [mapsTo_eq_ownerNode hsize' hsort' key, mapsTo_eq_ownerNode hsize hsort key, hhv, hring]
  cases how : ownerNode r.ring (r.hashValue key) with
  | none =>
    have he : r.ring = [] := (ownerNode_none_iff _ _).mp how
    rw [he]
    rfl
  | some q =>
    have hq : r.mapsTo key = some q.server := by
      rw [mapsTo_eq_ownerNode hsize hsort key, how]
      rfl
    have hqs : q.server ≠ s := by
      intro he
      rw [he] at hq
      exact howner hq
    rw [ownerNode_filter how hqs]

theorem eraseKey_of_lookup_none {m : List (String × Nat)} {k : String}
    (h : List.lookup k m = none) : eraseKey m k = m := by
  rw [List.lookup_eq_none_iff] at h
  unfold eraseKey
  rw [List.filter_eq_self]
  intro p hp
  have h2 : k ≠ p.1 := bne_iff_ne.mp (h p hp)
  exact decide_eq_true fun e => h2 e.symm

/-! ### `swap` and the length formula -/

theorem foldl_weight_map {g : Server → Server} (hw : ∀ x, (g x).weight = x.weight) :
    ∀ (l : List Server) (a : Nat),
      (l.map g).foldl (fun t s => t + s.weight) a = l.foldl (fun t s => t + s.weight) a := by
  intro l
  induction l with
  | nil => intro a; rfl
  | cons x xs ih =>
    intro a
    rw [List.map_cons, List.foldl_cons, List.foldl_cons, hw x]
    exact ih _

theorem totalWeight_swap (r : HashRing) (f t : String) :
    totalWeight (r.swap f t).servers = totalWeight r.servers := by
  unfold totalWeight
  exact foldl_weight_map (fun x => by by_cases hx : x.string = f <;> simp [hx]) r.servers 0

theorem lookup_map_upd_self {α β : Type} [BEq α] [LawfulBEq α] (m : List (α × β)) (k : α)
    (v : β) (hany : m.any (fun p => p.1 == k) = true) :
    List.lookup k (m.map fun p => if p.1 == k then (k, v) else p) = some v := by
  induction m with
  | nil => simp at hany
  | cons p ps ih =>
    obtain ⟨a, b⟩ := p
    rw [List.map_cons]
    by_cases hak : (a == k) = true
    · rw [if_pos (by simpa using hak)]
      exact List.lookup_cons_self
    · have hak' : (a == k) = false := by simpa using hak
      have hne : a ≠ k := by simpa using hak
      rw [if_neg (by simpa using hak), List.lookup_cons,
        show (k == a) = false from beq_eq_false_iff_ne.mpr fun e => hne e.symm]
      apply ih
      rw [List.any_cons, hak', Bool.false_or] at hany
      exact hany

theorem lookup_append_single_self {α β : Type} [BEq α] [LawfulBEq α] (m : List (α × β))
    (k : α) (v : β) (hnone : m.any (fun p => p.1 == k) = false) :
    List.lookup k (m ++ [(k, v)]) = some v := by
  rw [List.lookup_append]
  have hm : List.lookup k m = none := by
    rw [List.lookup_eq_none_iff]
    intro p hp
    have hknot : ¬(p.1 == k) = true := by
      intro hpk
      have : m.any (fun q => q.1 == k) = true := List.any_eq_true.mpr ⟨p, hp, hpk⟩
      rw [hnone] at this
      exact Bool.noConfusion this
    have hne : p.1 ≠ k := fun e => hknot (by rw [e]; simp)
    exact bne_iff_ne.mpr fun e => hne e.symm
  rw [hm, List.lookup_cons_self]
  rfl

theorem lookup_setKey_self (m : List (String × Nat)) (k : String) (v : Nat) :
    List.lookup k (setKey m k v) = some v := by
  unfold setKey
  split
  · rename_i h
    exact lookup_map_upd_self m k v h
  · rename_i h
    exact lookup_append_single_self m k v (Bool.eq_false_iff.mpr h)

theorem swap_vnodes_lookup_to (r : HashRing) {f t : String} (hft : f ≠ t) :
    List.lookup t (r.swap f t).vnodes = List.lookup f r.vnodes := by
  show List.lookup t (eraseKey _ f) = _
  rw [lookup_eraseKey_ne _ fun e => hft e.symm]
  cases hf : List.lookup f r.vnodes with
  | some v => exact lookup_setKey_self r.vnodes t v
  | none => exact lookup_eraseKey_self r.vnodes t

theorem swap_vnodes_lookup_other (r : HashRing) {f t name : String} (hnf : name ≠ f)
    (hnt : name ≠ t) :
    List.lookup name (r.swap f t).vnodes = List.lookup name r.vnodes := by
  show List.lookup name (eraseKey _ f) = _
  rw [lookup_eraseKey_ne _ hnf]
  cases hf : List.lookup f r.vnodes with
  | some v => exact lookup_setKey_ne r.vnodes v hnt
  | none => exact lookup_eraseKey_ne r.vnodes hnt

theorem vnodesFor_swap_renamed (r : HashRing) {f t : String} (hft : f ≠ t) :
    (r.swap f t).vnodesFor t = r.vnodesFor f := by
  unfold vnodesFor
  rw [swap_vnodes_lookup_to r hft]
  rfl

theorem vnodesFor_swap_other (r : HashRing) {f t name : String} (hnf : name ≠ f)
    (hnt : name ≠ t) : (r.swap f t).vnodesFor name = r.vnodesFor name := by
  unfold vnodesFor
  rw [swap_vnodes_lookup_other r hnf hnt]
  rfl

/-- `swap` preserves the claim C3 length formula, provided `to` is fresh
(no other server already has that id) and the swap is not degenerate. -/
theorem formulaSum_swap {r : HashRing} {f t : String} (hft : f ≠ t)
    (hother : ∀ sv ∈ r.servers, sv.string ≠ f → sv.string ≠ t) :
    (r.swap f t).formulaSum = r.formulaSum := by
  unfold formulaSum
  have hlen : (r.swap f t).servers.length = r.servers.length := by
    simp [swap]
  rw [totalWeight_swap, hlen]
  have hmap : (r.swap f t).servers = r.servers.map fun s =>
      if s.string = f then { s with string := t, host := (parseHostPort t).1,
                                    port := (parseHostPort t).2 } else s := rfl
  rw [hmap, List.map_map]
  congr 1
  apply List.map_congr_left
  intro sv hsv
  simp only [Function.comp]
  by_cases hs : sv.string = f
  · rw [if_pos hs]
    show serverLength sv.weight _ ((r.swap f t).vnodesFor t) _ * (r.swap f t).replicas = _
    rw [vnodesFor_swap_renamed r hft, hs]
    rfl
  · rw [if_neg hs]
    show serverLength sv.weight _ ((r.swap f t).vnodesFor sv.string) _ *
      (r.swap f t).replicas = _
    rw [vnodesFor_swap_other r hs (hother sv hsv hs)]
    rfl

theorem swap_ring_sorted {r : HashRing} (h : RingSorted r.ring) (f t : String) :
    RingSorted (r.swap f t).ring := by
  show RingSorted (r.ring.map _)
  unfold RingSorted at h ⊢
  rw [List.pairwise_map]
  refine h.imp ?_
  intro a b hab
  by_cases ha : a.server = f <;> by_cases hb : b.server = f <;> simpa [ha, hb] using hab

theorem swap_ring_length (r : HashRing) (f t : String) :
    (r.swap f t).ring.length = r.ring.length := by
  simp [swap]

/-- The C3 invariant is preserved by a non-degenerate fresh-target
`swap`. -/
theorem ringInv_swap {r : HashRing} {f t : String} (hinv : ringInv r) (hft : f ≠ t)
    (hother : ∀ sv ∈ r.servers, sv.string ≠ f → sv.string ≠ t) :
    ringInv (r.swap f t) := by
  obtain ⟨h1, h2, h3⟩ := hinv
  refine ⟨swap_ring_sorted h1 f t, ?_, ?_⟩
  · rw [swap_ring_length]
    exact h2
  · rw [swap_ring_length, formulaSum_swap hft hother]
    exact h3

/-! ### `range` and first-occurrence deduplication -/

theorem dedupInto_extends (l : List String) :
    ∀ acc, ∃ tl, dedupInto acc l = acc ++ tl := by
  induction l with
  | nil => exact fun acc => ⟨[], (List.append_nil acc).symm⟩
  | cons s rest ih =>
    intro acc
    rw [dedupInto]
    by_cases hs : s ∈ acc
    · rw [if_pos hs]
      exact ih acc
    · rw [if_neg hs]
      obtain ⟨tl, htl⟩ := ih (acc ++ [s])
      exact ⟨[s] ++ tl, by rw [htl, List.append_assoc]⟩

theorem rangeLoop_eq_dedup (size : Nat) :
    ∀ (l : List Node) (acc : List String), acc.length < size →
      rangeLoop size true l acc = (dedupInto acc (l.map fun n => n.server)).take size := by
  intro l
  induction l with
  | nil =>
    intro acc hacc
    rw [rangeLoop, List.map_nil, dedupInto, List.take_of_length_le (Nat.le_of_lt hacc)]
  | cons n rest ih =>
    intro acc hacc
    rw [rangeLoop, List.map_cons, dedupInto]
    have hpush : rangePush true n.server acc =
        if n.server ∈ acc then acc else acc ++ [n.server] := by
      unfold rangePush
      rw [if_pos rfl]
    have hlen : (rangePush true n.server acc).length ≤ acc.length + 1 := by
      rw [hpush]
      split
      · exact Nat.le_succ _
      · rw [List.length_append]
        simp
    by_cases hstop : (rangePush true n.server acc).length = size
    · rw [if_pos hstop]
      obtain ⟨tl, htl⟩ := dedupInto_extends (rest.map fun n => n.server)
        (rangePush true n.server acc)
      rw [← hpush, htl, ← hstop, List.take_left]
    · rw [if_neg hstop]
      rw [ih (rangePush true n.server acc)
        (Nat.lt_of_le_of_ne (Nat.le_trans hlen (Nat.succ_le_of_lt hacc)) hstop)]
      rw [hpush]

theorem dedupInto_nodup (l : List String) :
    ∀ acc, acc.Nodup → (dedupInto acc l).Nodup := by
  induction l with
  | nil => exact fun acc h => h
  | cons s rest ih =>
    intro acc h
    rw [dedupInto]
    by_cases hs : s ∈ acc
    · rw [if_pos hs]
      exact ih acc h
    · rw [if_neg hs]
      apply ih
      rw [List.nodup_append]
      exact ⟨h, List.nodup_singleton s, fun a ha hb => hs (List.mem_singleton.mp hb ▸ ha)⟩

theorem mem_dedupInto (l : List String) :
    ∀ acc x, x ∈ dedupInto acc l ↔ x ∈ acc ∨ x ∈ l := by
  induction l with
  | nil => intro acc x; rw [dedupInto]; simp
  | cons s rest ih =>
    intro acc x
    rw [dedupInto]
    by_cases hs : s ∈ acc
    · rw [if_pos hs, ih]
      constructor
      · rintro (h | h)
        · exact Or.inl h
        · exact Or.inr (List.mem_cons_of_mem s h)
      · rintro (h | h)
        · exact Or.inl h
        · rcases List.mem_cons.mp h with rfl | h
          · exact Or.inl hs
          · exact Or.inr h
    · rw [if_neg hs, ih]
      rw [List.mem_append, List.mem_singleton, List.mem_cons]
      tauto

theorem dedupFirst_nodup (l : List String) : (dedupFirst l).Nodup :=
  dedupInto_nodup l [] List.nodup_nil

theorem mem_dedupFirst {l : List String} {x : String} : x ∈ dedupFirst l ↔ x ∈ l := by
  unfold dedupFirst
  rw [mem_dedupInto]
  simp

/-- `dedupFirst` counts exactly the distinct elements. -/
theorem length_dedupFirst (l : List String) : (dedupFirst l).length = l.toFinset.card := by
  have h1 : (dedupFirst l).toFinset = l.toFinset := by
    ext x
    simp [List.mem_toFinset, mem_dedupFirst]
  rw [← h1, List.toFinset_card_of_nodup (dedupFirst_nodup l)]

/-- The circular walk visits the same server set as the ring itself. -/
theorem toFinset_rotation (l : List Node) (p : Nat) :
    ((l.drop p ++ l.take p).map fun n => n.server).toFinset =
      (l.map fun n => n.server).toFinset := by
  rw [List.map_append, List.toFinset_append, Finset.union_comm, ← List.toFinset_append,
    ← List.map_append, List.take_append_drop]

/-! ### The claims -/

/-- C1: on every non-empty ring sorted ascending by coordinate (with
`size` mirroring the ring length, as on every reachable state) and every
value `hv`, `find(hv)` returns the index of the first RingPoint whose
coordinate is ≥ `hv`, and returns 0 when `hv` is greater than every
point's coordinate — so the binary search's bounds-crossed fallback of
returning 0 agrees with the circular wraparound case. -/
theorem claim_C1 (r : HashRing) (hv : Nat) (hsize : r.size = r.ring.length)
    (hsort : RingSorted r.ring) (hne : r.ring ≠ []) :
    r.find hv = (firstGE hv r.ring).getD 0 ∧
      ((∀ n ∈ r.ring, n.value < hv) → r.find hv = 0) := by
  refine ⟨find_eq_firstGE hsize hsort hv, fun hall => ?_⟩
  rw [find_eq_firstGE hsize hsort hv, firstGE_none_iff.mpr hall]
  rfl

theorem claim_C1_witness :
    (exA.size = exA.ring.length ∧ RingSorted exA.ring ∧ exA.ring ≠ []) ∧
      exA.find 50 = (firstGE 50 exA.ring).getD 0 ∧
      ((∀ n ∈ exA.ring, n.value < 50) → exA.find 50 = 0) :=
  ⟨⟨by decide, by decide, by decide⟩, claim_C1 exA 50 (by decide) (by decide) (by decide)⟩

/-- C10: `find` is total — on every ring (sorted ascending, `size`
consistent, empty included) and every input value, the binary-search
loop terminates within the provided fuel (`size + 1` iterations) and
returns an index that is 0 on an empty ring and lies in
`[0, ring length)` on a non-empty one. -/
theorem claim_C10 (r : HashRing) (hv : Nat) (hsize : r.size = r.ring.length)
    (hsort : RingSorted r.ring) :
    findLoop r.ring r.size hv 0 (r.size : Int) (r.size + 1) = some (r.find hv) ∧
      (r.ring = [] → r.find hv = 0) ∧
      (r.ring ≠ [] → r.find hv < r.ring.length) := by
  have hterm := findLoop_terminates hsize hsort hv
  refine ⟨?_, ?_, fun hne => find_lt_length hsize hsort hne hv⟩
  · rw [hterm]
    unfold find
    rw [hterm]
    rfl
  · intro he
    rw [find_eq_firstGE hsize hsort, he]
    rfl

theorem claim_C10_witness :
    (exA.size = exA.ring.length ∧ RingSorted exA.ring) ∧
      findLoop exA.ring exA.size 50 0 (exA.size : Int) (exA.size + 1) =
        some (exA.find 50) ∧
      (exA.ring = [] → exA.find 50 = 0) ∧
      (exA.ring ≠ [] → exA.find 50 < exA.ring.length) :=
  ⟨⟨by decide, by decide⟩, claim_C10 exA 50 (by decide) (by decide)⟩

/-- C7: with no servers, `continuum` is a no-op (the ring stays empty),
and on an instance constructed from an empty server set `get` returns
the explicit absent result (`none`) rather than failing. -/
theorem continuum_empty {r : HashRing} (h : r.servers = []) : r.continuum = r := by
  unfold continuum
  rw [if_pos (by rw [h]; rfl)]

theorem claim_C7 :
    (∀ r : HashRing, r.servers = [] → r.continuum = r) ∧
      (∀ (hash : String → List Nat) (opts : RingOptions) (key : String),
        (mkHashRing [] hash opts).ring = [] ∧
          ((mkHashRing [] hash opts).get key).1 = none) := by
  constructor
  · intro r h
    exact continuum_empty h
  · intro hash opts key
    have hring : (mkHashRing [] hash opts).ring = [] := by
      unfold mkHashRing
      rw [continuum_empty rfl]
    have hc : (mkHashRing [] hash opts).cache = [] := mkHashRing_cache _ _ _
    refine ⟨hring, ?_⟩
    unfold get
    rw [hc]
    show ((mkHashRing [] hash opts).getCompute key).1 = none
    unfold getCompute
    rw [hring]
    simp

theorem claim_C7_witness :
    (exEmpty.servers = [] ∧ exEmpty.continuum = exEmpty) ∧
      (mkHashRing [] hashA {}).ring = [] ∧
      ((mkHashRing [] hashA {}).get "k").1 = none :=
  ⟨⟨by decide, claim_C7.1 exEmpty (by decide)⟩, claim_C7.2 hashA {} "k"⟩

/-- C6: `get` is deterministic — for a fixed server set, digest function
and options, a repeated `get(key)` on the same instance (the second call
typically answered from the cache the first call filled) returns the
same server id, and two independently constructed instances from the
same inputs agree on every key. -/
theorem claim_C6 (servers : List Server) (hash : String → List Nat) (opts : RingOptions)
    (key : String) :
    ((mkHashRing servers hash opts).get key).1 =
        (((mkHashRing servers hash opts).get key).2.get key).1 ∧
      ((mkHashRing servers hash opts).get key).1 =
        ((mkHashRing servers hash opts).get key).1 := by
  have h0 := mk_cacheOK servers hash opts
  constructor
  · rw [get_fst h0 key, get_fst (get_snd_cacheOK h0 key) key, get_snd_mapsTo]
  · rfl

/-- C4: after `swap(from, to)`, `get(key)` equals `to` wherever it
previously equaled `from` and is unchanged otherwise; the ring's length
and every RingPoint's coordinate and position are unchanged; and the
cache is rewritten entrywise, exactly the entries valued `from` becoming
`to`. -/
theorem claim_C4 (r : HashRing) (f t key : String) (hcache : cacheOK r) :
    ((r.swap f t).get key).1 =
        (if (r.get key).1 = some f then some t else (r.get key).1) ∧
      (r.swap f t).ring.length = r.ring.length ∧
      (∀ i : Nat, ((r.swap f t).ring.get? i).map (fun n => n.value) =
        (r.ring.get? i).map fun n => n.value) ∧
      (r.swap f t).cache = r.cache.map fun p => if p.2 = f then (p.1, t) else p := by
  refine ⟨?_, swap_ring_length r f t, ?_, rfl⟩
  · rw [get_fst (swap_cacheOK hcache f t) key, get_fst hcache key, mapsTo_swap]
    cases hm : r.mapsTo key with
    | none => simp
    | some v => by_cases hv : v = f <;> simp [hv]
  · intro i
    show ((r.ring.map _).get? i).map _ = _
    rw [List.get?_map]
    cases r.ring.get? i with
    | none => rfl
    | some n => by_cases hn : n.server = f <;> simp [hn]

theorem claim_C4_witness :
    cacheOK exA ∧
      ((exA.swap "a" "x").get "k").1 =
        (if (exA.get "k").1 = some "a" then some "x" else (exA.get "k").1) ∧
      (exA.swap "a" "x").ring.length = exA.ring.length ∧
      (∀ i : Nat, ((exA.swap "a" "x").ring.get? i).map (fun n => n.value) =
        (exA.ring.get? i).map fun n => n.value) ∧
      (exA.swap "a" "x").cache = exA.cache.map fun p => if p.2 = "a" then (p.1, "x") else p :=
  ⟨by decide, claim_C4 exA "a" "x" "k" (by decide)⟩

/-- C5 (code bug): the coordinate actually used for lookup is NOT the
raw-byte packing formula of spec §4.4 for every digest byte value 0…255:
`digest` funnels the digest bytes through `Buffer#toString()` (UTF-8
decoding with replacement), so a digest starting with byte 0x80 packs
65533 (U+FFFD) instead of 128 — here the code computes 0xFD000001 where
the claimed formula gives 0x80000001. -/
theorem claim_C5_eval :
    exD.hashValue "k" = 4244635649 ∧
      specRawCoordinate (hashD "k") 0 = 2147483649 ∧
      exD.hashValue "k" ≠ specRawCoordinate (hashD "k") 0 :=
  ⟨by decide, by decide, by decide⟩

/-- C2 (counterexample): with weights a:1, b:1, c:2 and vnode count 4,
the key "k" is owned by b, yet after `remove("c")` it is owned by a —
a key not owned by the removed server was reassigned, because the
per-server point count `⌊(w/W)·v·n⌋` changes with the total weight `W`
and server count `n`. -/
theorem claim_C2_counterexample :
    (exB.get "k").1 = some "b" ∧ "b" ≠ "c" ∧
      ((exB.remove "c").get "k").1 = some "a" ∧
      ((exB.remove "c").get "k").1 ≠ (exB.get "k").1 :=
  ⟨by decide, by decide, by decide, by decide⟩

/-- C2 (amended): after `remove(s)` from a reachable state, `get(key)`
is unchanged for every key not previously mapped to `s`, PROVIDED every
remaining server's computed point count — `serverLength`, the binary64
evaluation of `Math.floor(w_i/W * vnodes_i * serverCount)` exactly as
the code computes it — is unchanged by the removal; without that
proviso the counterexample above applies.  The proviso holds in the
witness's three-equal-weight configuration, but not for all
equal-weight configurations: rounding can move the computed count
across an integer (e.g. 49 equal-weight servers with vnode count 40
compute 39 points per server, and 40 once one server is removed). -/
theorem claim_C2_amended (r : HashRing) (s key : String)
    (hcan : canonicalRing r) (hcache : cacheOK r)
    (hlen : ∀ t ∈ r.servers, t.string ≠ s →
      serverLength t.weight (totalWeight (r.servers.filter fun u => u.string ≠ s))
          (r.vnodesFor t.string) (r.servers.filter fun u => u.string ≠ s).length =
        serverLength t.weight (totalWeight r.servers) (r.vnodesFor t.string)
          r.servers.length)
    (hnot : (r.get key).1 ≠ some s) :
    ((r.remove s).get key).1 = (r.get key).1 := by
  have hb := get_fst hcache key
  have hcache' : cacheOK (r.remove s) := by
    intro p hp
    have hce : (r.remove s).cache = [] := by
      unfold remove
      rw [continuum_cache]
      rfl
    rw [hce] at hp
    simp at hp
  rw [get_fst hcache' key, hb]
  apply mapsTo_remove key hcan hlen
  rw [← hb]
  exact hnot

theorem claim_C2_witness :
    (canonicalRing exA ∧ cacheOK exA ∧
      (∀ t ∈ exA.servers, t.string ≠ "c" →
        serverLength t.weight (totalWeight (exA.servers.filter fun u => u.string ≠ "c"))
            (exA.vnodesFor t.string) (exA.servers.filter fun u => u.string ≠ "c").length =
          serverLength t.weight (totalWeight exA.servers) (exA.vnodesFor t.string)
            exA.servers.length) ∧
      (exA.get "k").1 ≠ some "c") ∧
      ((exA.remove "c").get "k").1 = (exA.get "k").1 :=
  ⟨⟨by decide, by decide, by decide, by decide⟩,
    claim_C2_amended exA "c" "k" (by decide) (by decide) (by decide) (by decide)⟩

set_option maxRecDepth 40000 in
/-- C3 (counterexample, two independent failures of the stated claim):
(1) already after plain construction the exact-arithmetic formula is
wrong about the program — at `exF` (three equal-weight servers, vnode
count 7) binary64 `(1/3) * 7 * 3` is just below 7, so the ring has
3·6·4 = 72 points while `Σ floor((w_i/W)·vnodes_i·serverCount)·replicas`
read exactly gives 3·7·4 = 84; (2) `swap` can break even the
code-arithmetic formula — from `exC` (server b has a vnode override
of 2), `swap("c", "b")` with an unknown `from` executes
`this.vnodes[b] = this.vnodes[c]` (i.e. `undefined`), destroying b's
override: the ring still has 12 points but the formula now sums to 8. -/
theorem claim_C3_counterexample :
    (exF.ring.length = 72 ∧ exF.exactFormulaSum = 84 ∧
      exF.ring.length ≠ exF.exactFormulaSum) ∧
      (RingSorted (exC.swap "c" "b").ring ∧
        (exC.swap "c" "b").ring.length = 12 ∧
        (exC.swap "c" "b").formulaSum = 8 ∧
        (exC.swap "c" "b").ring.length ≠ (exC.swap "c" "b").formulaSum) :=
  ⟨⟨by decide, by decide, by decide⟩, by decide, by decide, by decide, by decide⟩

/-- C3 (amended): with `length_i` denoting
`Math.floor(w_i/W * vnodes_i * serverCount)` computed in IEEE binary64
arithmetic exactly as the code computes it (`serverLength`), after
construction, `add` and `remove` the ring is sorted ascending with
`size` consistent and length equal to the sum over servers of
`length_i × replicaCount`; `reset` leaves an empty ring; and
`swap(from, to)` preserves the invariant provided the swap is not
degenerate (`from ≠ to`) and `to` is not the id of a server other than
those named `from`.  Both amendments are forced: the counterexample
above refutes the exact-arithmetic reading of the formula already at
construction, and refutes the unrestricted swap clause. -/
theorem claim_C3_amended :
    (∀ (servers : List Server) (hash : String → List Nat) (opts : RingOptions),
      ringInv (mkHashRing servers hash opts)) ∧
      (∀ (r : HashRing) (new : List Server), ringInv (r.add new)) ∧
      (∀ (r : HashRing) (s : String), ringInv (r.remove s)) ∧
      (∀ r : HashRing, (r.reset).ring = [] ∧ (r.reset).size = 0) ∧
      (∀ (r : HashRing) (f t : String), ringInv r → f ≠ t →
        (∀ sv ∈ r.servers, sv.string ≠ f → sv.string ≠ t) →
        ringInv (r.swap f t)) := by
  refine ⟨?_, ?_, ?_, fun r => ⟨rfl, rfl⟩, ?_⟩
  · intro servers hash opts
    unfold mkHashRing
    exact ringInv_continuum rfl rfl
  · intro r new
    unfold add
    exact ringInv_continuum rfl rfl
  · intro r s
    unfold remove
    exact ringInv_continuum rfl rfl
  · intro r f t hinv hft hother
    exact ringInv_swap hinv hft hother

theorem claim_C3_witness :
    (ringInv exA ∧ ("a" : String) ≠ "x" ∧
      (∀ sv ∈ exA.servers, sv.string ≠ "a" → sv.string ≠ "x")) ∧
      ringInv (exA.swap "a" "x") :=
  ⟨⟨by decide, by decide, by decide⟩,
    claim_C3_amended.2.2.2.2 exA "a" "x" (by decide) (by decide) (by decide)⟩

/-- C8 (counterexample): `swap(from, to)` with an unknown `from` is NOT
a no-op on the vnode-override map when `to` already has an override:
`this.vnodes[to] = this.vnodes[from]` assigns `undefined` over it, so
b's override (2) is lost even though "c" is absent from the ServerSet
and owns no ring points. -/
theorem claim_C8_counterexample :
    (∀ sv ∈ exC.servers, sv.string ≠ "c") ∧
      (∀ n ∈ exC.ring, n.server ≠ "c") ∧
      (exC.swap "c" "b").vnodes ≠ exC.vnodes ∧
      (exC.swap "c" "b").vnodesFor "b" ≠ exC.vnodesFor "b" :=
  ⟨by decide, by decide, by decide, by decide⟩

/-- C8 (amended): `remove(s)` with `s` absent from the ServerSet (and,
per the reachable-state invariant, from the vnode-override map) leaves
the ServerSet, the vnode-override map and the key→server mapping
unchanged (the ring is rebuilt to the identical value and the cache is
cleared); `swap(from, to)` with `from` owning no ring points, absent
from the ServerSet, the cache values and the vnode map, is a complete
no-op provided `to` has no vnode-override entry — without that proviso
the counterexample above applies. -/
theorem claim_C8_amended (r : HashRing) (s f t : String) :
    ((canonicalRing r → (∀ sv ∈ r.servers, sv.string ≠ s) →
      List.lookup s r.vnodes = none →
        (r.remove s).servers = r.servers ∧ (r.remove s).vnodes = r.vnodes ∧
          ∀ key, (r.remove s).mapsTo key = r.mapsTo key)) ∧
      ((∀ sv ∈ r.servers, sv.string ≠ f) → (∀ n ∈ r.ring, n.server ≠ f) →
        (∀ p ∈ r.cache, p.2 ≠ f) → List.lookup f r.vnodes = none →
        List.lookup t r.vnodes = none → r.swap f t = r) := by
  constructor
  · intro hcan hserv hvn
    have hfs : r.servers.filter (fun u => u.string ≠ s) = r.servers :=
      List.filter_eq_self.mpr fun sv hsv => by simpa using hserv sv hsv
    have hek : eraseKey r.vnodes s = r.vnodes := eraseKey_of_lookup_none hvn
    refine ⟨?_, ?_, ?_⟩
    · rw [remove_servers, hfs]
    · rw [remove_vnodes, hek]
    · intro key
      obtain ⟨hr, hs2⟩ := continuum_ring (r := reset
        { r with
          vnodes := eraseKey r.vnodes s
          servers := r.servers.filter fun u => u.string ≠ s }) rfl rfl
      have hgen : (reset
          { r with
            vnodes := eraseKey r.vnodes s
            servers := r.servers.filter fun u => u.string ≠ s }).genPoints =
          r.genPoints :=
        genPoints_congr hfs hek rfl rfl rfl
      have hring : (r.remove s).ring = r.ring := by
        show (continuum _).ring = r.ring
        rw [hr, hgen, ← hcan.1]
      have hsz : (r.remove s).size = r.size := by
        show (continuum _).size = r.size
        rw [hs2]
        show (r.remove s).ring.length = r.size
        rw [hring, hcan.2]
      exact mapsTo_congr hring hsz (remove_hash r s) key
  · intro hserv hring hcache hvf hvt
    have h1 : r.ring.map (fun n => if n.server = f then { n with server := t } else n) =
        r.ring := by
      rw [List.map_congr_left fun n hn => if_neg (hring n hn), List.map_id']
    have h2 : r.cache.map (fun p => if p.2 = f then (p.1, t) else p) = r.cache := by
      rw [List.map_congr_left fun p hp => if_neg (hcache p hp), List.map_id']
    have h3 : r.servers.map (fun sv =>
        if sv.string = f then { sv with string := t, host := (parseHostPort t).1,
                                        port := (parseHostPort t).2 } else sv) =
        r.servers := by
      rw [List.map_congr_left fun sv hsv => if_neg (hserv sv hsv), List.map_id']
    unfold swap
    rw [hvf, eraseKey_of_lookup_none hvt, eraseKey_of_lookup_none hvf, h1, h2, h3]

theorem claim_C8_witness :
    (canonicalRing exA ∧ (∀ sv ∈ exA.servers, sv.string ≠ "z") ∧
      List.lookup "z" exA.vnodes = none ∧ (∀ n ∈ exA.ring, n.server ≠ "z") ∧
      (∀ p ∈ exA.cache, p.2 ≠ "z") ∧ List.lookup "w" exA.vnodes = none) ∧
      ((exA.remove "z").servers = exA.servers ∧ (exA.remove "z").vnodes = exA.vnodes ∧
        ∀ key, (exA.remove "z").mapsTo key = exA.mapsTo key) ∧
      exA.swap "z" "w" = exA :=
  ⟨⟨by decide, by decide, by decide, by decide, by decide, by decide⟩,
    (claim_C8_amended exA "z" "z" "w").1 (by decide) (by decide) (by decide),
    (claim_C8_amended exA "z" "z" "w").2 (by decide) (by decide) (by decide) (by decide)
      (by decide)⟩

/-- C9: on a non-empty ring, `range(key, n, true)` (for `n > 0`) is the
first-occurrence deduplication of the server ids in circular ring-walk
order starting at `find(hashValue(key))`, truncated to `n`; it is
duplicate-free of length `min(n, number of distinct server ids on the
ring)`; an omitted size defaults to the ServerSet's size; and on an
empty ring `range` returns the empty list. -/
theorem claim_C9 (r : HashRing) (key : String) (n : Nat) (hn : 0 < n)
    (hsz : r.size = r.ring.length) (hne : r.ring ≠ []) :
    (r.range key (some n) (some true) =
        (dedupFirst ((r.ring.drop (r.find (r.hashValue key)) ++
          r.ring.take (r.find (r.hashValue key))).map fun nd => nd.server)).take n) ∧
      (r.range key (some n) (some true)).Nodup ∧
      (r.range key (some n) (some true)).length =
        min n ((r.ring.map fun nd => nd.server).toFinset.card) ∧
      (∀ uq, r.range key none uq = r.range key (some r.servers.length) uq) ∧
      (∀ (r' : HashRing) (key' : String) (szA : Option Nat) (uqA : Option Bool),
        r'.size = 0 → r'.range key' szA uqA = []) := by
  have hsz0 : r.size ≠ 0 := by
    rw [hsz]
    exact fun h => hne (List.length_eq_zero.mp h)
  have heq : r.range key (some n) (some true) =
      (dedupFirst ((r.ring.drop (r.find (r.hashValue key)) ++
        r.ring.take (r.find (r.hashValue key))).map fun nd => nd.server)).take n := by
    unfold range
    rw [if_neg hsz0]
    show rangeLoop (if n = 0 then r.servers.length else n) true _ [] = _
    rw [if_neg (Nat.pos_iff_ne_zero.mp hn)]
    exact rangeLoop_eq_dedup n _ [] hn
  refine ⟨heq, ?_, ?_, ?_, ?_⟩
  · rw [heq]
    exact List.Nodup.sublist (List.take_sublist n _) (dedupFirst_nodup _)
  · rw [heq, List.length_take, length_dedupFirst, toFinset_rotation]
  · intro uq
    unfold range
    rw [if_neg hsz0, if_neg hsz0]
    show rangeLoop r.servers.length _ _ [] =
      rangeLoop (if r.servers.length = 0 then r.servers.length else r.servers.length) _ _ []
    rw [ite_self]
  · intro r' key' szA uqA h0
    unfold range
    rw [if_pos h0]

theorem claim_C9_witness :
    (0 < 2 ∧ exA.size = exA.ring.length ∧ exA.ring ≠ []) ∧
      (exA.range "k" (some 2) (some true) =
        (dedupFirst ((exA.ring.drop (exA.find (exA.hashValue "k")) ++
          exA.ring.take (exA.find (exA.hashValue "k"))).map fun nd => nd.server)).take 2) ∧
      (exA.range "k" (some 2) (some true)).Nodup ∧
      (exA.range "k" (some 2) (some true)).length =
        min 2 ((exA.ring.map fun nd => nd.server).toFinset.card) ∧
      (∀ uq, exA.range "k" none uq = exA.range "k" (some exA.servers.length) uq) ∧
      (∀ (r' : HashRing) (key' : String) (szA : Option Nat) (uqA : Option Bool),
        r'.size = 0 → r'.range key' szA uqA = []) :=
  ⟨⟨by decide, by decide, by decide⟩,
    claim_C9 exA "k" 2 (by decide) (by decide) (by decide)⟩

end HashRing

